import Mathlib

/- Verification of the A* sliding-puzzle search engine in src/PuzzleSolver.py.

   The model below is a shallow embedding of the three core functions of the
   source file: is_solvable (lines 86-96), manhattan_distance (lines 126-137)
   and a_star_solver (lines 140-181), together with the module constants
   GRID_SIZE = 3 and BLANK_TILE = -1 (lines 9, 13).

   Python configurations are lists of ints; they are modelled as List Int.
   Fallible Python operations (list.index raising ValueError, list subscripts
   raising IndexError, dict subscripts raising KeyError) are modelled in an
   Except monad over the error type PyErr.  The unbounded while loop of
   a_star_solver is modelled with an explicit fuel parameter large enough that
   it is provably never exhausted (theorem aLoop_run below); running out of
   fuel yields the distinguished error PyErr.outOfFuel, which never occurs.
   The error kind PyErr.invalidConfiguration models the error surface named
   by the specification; the source code never raises it, and the constructor
   exists so that claims about it can be stated. -/

abbrev Config := List Int

/-- Source constant BLANK_TILE = -1 (line 13). -/
def BLANK_TILE : Int := -1

/-- Source constant GRID_SIZE = 3 (line 9). -/
def GRID_SIZE : Nat := 3

/-- Error kinds a modelled Python call can surface. -/
inductive PyErr : Type where
  | valueError : PyErr
  | keyError : PyErr
  | indexError : PyErr
  | invalidConfiguration : PyErr
  | outOfFuel : PyErr
deriving DecidableEq, Repr

/-- Model of Python list.index restricted to success: first index of t in l. -/
def pyIndex : List Int → Int → Option Nat
  | [], _ => none
  | x :: xs, t => if x = t then some 0 else (pyIndex xs t).map (· + 1)

/-- Model of Python enumerate, starting at index n. -/
def enumFrom : Nat → List Int → List (Nat × Int)
  | _, [] => []
  | n, x :: xs => (n, x) :: enumFrom (n + 1) xs

/-- Model of Python list subscription l[i], raising IndexError out of range. -/
def listGet (l : List Int) (i : Nat) : Except PyErr Int :=
  match l.get? i with
  | some v => .ok v
  | none => .error .indexError

/-- Per-tile term of the heuristic (lines 134-135):
    abs(j % GRID_SIZE - i % GRID_SIZE) + abs(j // GRID_SIZE - i // GRID_SIZE)
    where j is the index of the tile in the goal and i its current index. -/
def cdist (j i : Nat) : Nat :=
  (((j : Int) % (GRID_SIZE : Int)) - ((i : Int) % (GRID_SIZE : Int))).natAbs +
  (((j : Int) / (GRID_SIZE : Int)) - ((i : Int) / (GRID_SIZE : Int))).natAbs

/-- Body of the generator sum in manhattan_distance (lines 133-137):
    iterates over enumerate(state), skips the blank, and looks the tile up in
    the goal with list.index (which raises ValueError when absent). -/
def mdGo (goal : Config) : List (Nat × Int) → Except PyErr Nat
  | [] => .ok 0
  | (i, t) :: rest =>
    if t = BLANK_TILE then mdGo goal rest
    else
      match pyIndex goal t with
      | none => .error .valueError
      | some j => (mdGo goal rest).map (fun n => cdist j i + n)

/-- Source function manhattan_distance (lines 126-137). -/
def manhattan_distance (state goal : Config) : Except PyErr Nat :=
  mdGo goal (enumFrom 0 state)

/-- Inversion count of the source (lines 93-95): number of pairs i < j with
    indices[i] > indices[j]. -/
def inversions : List Int → Nat
  | [] => 0
  | x :: xs => xs.countP (fun y => decide (y < x)) + inversions xs

/-- Source function is_solvable (lines 86-96): strips the blank and tests
    that the inversion count is even. -/
def is_solvable (tiles : Config) : Bool :=
  inversions (tiles.filter (fun t => t != BLANK_TILE)) % 2 == 0

/-- Search state of a_star_solver: the priority queue open_set and the two
    dictionaries came_from and g_score, the dictionaries modelled as maps
    into Option.  The f_score dictionary of the source (lines 151, 179) is
    write-only: each stored value is read back immediately on the next line
    and feeds the push, so it is inlined into the push and not tracked. -/
structure AState where
  queue : List (Nat × Config)
  came_from : Config → Option Config
  g_score : Config → Option Nat

/-- Pointwise update of a modelled dictionary. -/
def fupd {β : Type} (f : Config → β) (k : Config) (v : β) : Config → β :=
  fun x => if x = k then v else f x

/-- Python comparison of int lists (used by the heap through tuple order). -/
def listLe : List Int → List Int → Bool
  | [], _ => true
  | _ :: _, [] => false
  | x :: xs, y :: ys => if x < y then true else if y < x then false else listLe xs ys

/-- Python comparison of queue entries (priority, state-tuple). -/
def tupleLe (a b : Nat × Config) : Bool :=
  a.1 < b.1 || (a.1 == b.1 && listLe a.2 b.2)

/-- Model of PriorityQueue.get preceded by the empty() test (lines 153-154):
    removes and returns a least entry in the tuple order (Python heapq pops
    the minimum of the pushed tuples; entries comparing equal are identical
    tuples, so which occurrence is removed is unobservable). -/
def popMin : List (Nat × Config) → Option ((Nat × Config) × List (Nat × Config))
  | [] => none
  | e :: es =>
    match popMin es with
    | none => some (e, [])
    | some (m, rest) => if tupleLe e m then some (e, es) else some (m, e :: rest)

/-- Path reconstruction of the source (lines 156-161): walk the came_from
    links, collecting states; the Python code appends and finally reverses,
    which is modelled by accumulating with cons. -/
def reconstruct (came_from : Config → Option Config) :
    Nat → Config → List Config → Except PyErr (List Config)
  | 0, _, _ => .error .outOfFuel
  | fuel + 1, current, path =>
    match came_from current with
    | none => .ok path
    | some prev => reconstruct came_from fuel prev (current :: path)

/-- One direction (dr, dc) of the neighbor loop of a_star_solver
    (lines 167-180): bounds-check the moved blank, build the neighbor by
    swapping the blank with the adjacent cell, and relax the neighbor when
    the tentative g-score improves, pushing it with priority g + h. -/
def stepDir (goal current : Config) (blank : Nat) (d : Int × Int) (s : AState) :
    Except PyErr AState :=
  let row := blank / GRID_SIZE
  let col := blank % GRID_SIZE
  let nr : Int := (row : Int) + d.1
  let nc : Int := (col : Int) + d.2
  if 0 ≤ nr ∧ nr < (GRID_SIZE : Int) ∧ 0 ≤ nc ∧ nc < (GRID_SIZE : Int) then
    let swap_idx : Nat := (nr * (GRID_SIZE : Int) + nc).toNat
    match listGet current swap_idx, listGet current blank with
    | .error e, _ => .error e
    | .ok _, .error e => .error e
    | .ok ts, .ok tb =>
      let neighbor : Config := (current.set blank ts).set swap_idx tb
      match s.g_score current with
      | none => .error .keyError
      | some gc =>
        let tentative := gc + 1
        let better : Bool :=
          match s.g_score neighbor with
          | none => true
          | some gn => decide (tentative < gn)
        if better then
          match manhattan_distance neighbor goal with
          | .error e => .error e
          | .ok hn =>
            .ok { queue := (tentative + hn, neighbor) :: s.queue,
                  came_from := fupd s.came_from neighbor (some current),
                  g_score := fupd s.g_score neighbor (some tentative) }
        else .ok s
  else .ok s

/-- The while loop of a_star_solver (lines 153-181), one fuel per iteration:
    pop the least entry, return the reconstructed path when it is the goal,
    otherwise locate the blank and process the four directions in source
    order (-1,0), (1,0), (0,-1), (0,1). -/
def aLoop (goal : Config) (rfuel : Nat) : Nat → AState → Except PyErr (List Config)
  | 0, _ => .error .outOfFuel
  | fuel + 1, s =>
    match popMin s.queue with
    | none => .ok []
    | some ((_, current), rest) =>
      if current = goal then
        reconstruct s.came_from rfuel current []
      else
        match pyIndex current BLANK_TILE with
        | none => .error .valueError
        | some blank =>
          match stepDir goal current blank (-1, 0) { s with queue := rest } with
          | .error e => .error e
          | .ok s1 =>
            match stepDir goal current blank (1, 0) s1 with
            | .error e => .error e
            | .ok s2 =>
              match stepDir goal current blank (0, -1) s2 with
              | .error e => .error e
              | .ok s3 =>
                match stepDir goal current blank (0, 1) s3 with
                | .error e => .error e
                | .ok s4 => aLoop goal rfuel fuel s4

/-- Source function a_star_solver (lines 140-181).  The initial state pushes
    (0, initial), sets g_score[initial] = 0 and evaluates the heuristic of
    the initial state (which can raise ValueError, line 151).  The fuel
    bound B * B + 2 with B = (length of initial)! strictly dominates the
    termination measure proved below, so outOfFuel is unreachable. -/
def a_star_solver (initial goal : Config) : Except PyErr (List Config) :=
  let B := Nat.factorial initial.length
  match manhattan_distance initial goal with
  | .error e => .error e
  | .ok _ =>
    aLoop goal B (B * B + 2)
      { queue := [(0, initial)],
        came_from := fun _ => none,
        g_score := fupd (fun _ => none) initial (some 0) }

/- ----------------------------------------------------------------------
   Specification-level notions: the canonical goal, validity, legal moves,
   reachability, and the specification wordings used by refinement claims.
   ---------------------------------------------------------------------- -/

/-- The canonical 3x3 goal ordering: 1..8 followed by the blank. -/
def canonical3 : Config := [1, 2, 3, 4, 5, 6, 7, 8, -1]

/-- A valid 3x3 configuration: a permutation of the identifiers 1..8 plus
    the blank, one per cell. -/
def ValidConfig (c : Config) : Prop := c.Perm canonical3

instance (c : Config) : Decidable (ValidConfig c) := List.decidablePerm c canonical3

/-- Exchange the entries at positions i and j. -/
def swapL (l : List Int) (i j : Nat) : List Int :=
  (l.set i (l.getD j 0)).set j (l.getD i 0)

/-- Cells i and j of the 3x3 grid are orthogonally adjacent (row-major
    indices: same row and consecutive column, or same column and rows one
    apart). -/
def adjCell (i j : Nat) : Prop :=
  i < 9 ∧ j < 9 ∧
    ((i / 3 = j / 3 ∧ (i + 1 = j ∨ j + 1 = i)) ∨
     (i % 3 = j % 3 ∧ (i + 3 = j ∨ j + 3 = i)))

instance (i j : Nat) : Decidable (adjCell i j) := by unfold adjCell; infer_instance

/-- One legal blank-swap move: the blank sits at cell b, cell s is
    orthogonally adjacent, and the move swaps the two cells. -/
def moveRel (c c' : Config) : Prop :=
  ∃ b s, c.get? b = some BLANK_TILE ∧ adjCell b s ∧ c' = swapL c b s

/-- Bounded boolean test for moveRel. -/
def moveRelB (c c' : Config) : Bool :=
  (List.range 9).any fun b =>
    (List.range 9).any fun s =>
      c.get? b == some BLANK_TILE && decide (adjCell b s) && c' == swapL c b s

/-- Reachability in exactly n legal moves. -/
inductive Steps : Config → Config → Nat → Prop where
  | refl (c : Config) : Steps c c 0
  | tail {a b c : Config} {n : Nat} : Steps a b n → moveRel b c → Steps a c (n + 1)

/-- Total variant of the heuristic term, defaulting absent lookups to 0;
    it agrees with mdGo whenever every lookup succeeds. -/
def mvalGo (goal : Config) : List (Nat × Int) → Nat
  | [] => 0
  | (i, t) :: rest =>
    (if t = BLANK_TILE then 0 else cdist ((pyIndex goal t).getD 0) i) + mvalGo goal rest

/-- Total variant of manhattan_distance. -/
def mval (state goal : Config) : Nat := mvalGo goal (enumFrom 0 state)

/-- Spec-side statement of the heuristic: the sum, over every non-blank
    tile, of the Manhattan grid distance between the position of the tile
    in the state and its position in the goal. -/
def specManhattan (state goal : Config) : Nat :=
  ((state.filter (fun t => t != BLANK_TILE)).map
    (fun t => cdist ((pyIndex goal t).getD 0) ((pyIndex state t).getD 0))).sum

/-- Spec-side solvability rule, modelled from the spec text: for odd grid
    width solvable iff the inversion count is even; for even width solvable
    iff inversions plus the row distance of the blank from its goal row is
    even. -/
def spec_is_solvable (N : Nat) (tiles goal : Config) : Bool :=
  let inv := inversions (tiles.filter (fun t => t != BLANK_TILE))
  if N % 2 = 1 then inv % 2 == 0
  else
    let br := ((pyIndex tiles BLANK_TILE).getD 0) / N
    let gr := ((pyIndex goal BLANK_TILE).getD 0) / N
    (inv + ((br : Int) - (gr : Int)).natAbs) % 2 == 0

/-- All rearrangements of the tiles of the given start configuration; every
    configuration the search can ever key is among them. -/
def permsF (initial : Config) : Finset Config := initial.permutations.toFinset

/-- The set of configurations currently keyed in g_score. -/
def keysOf (initial : Config) (s : AState) : Finset Config :=
  (permsF initial).filter (fun c => (s.g_score c).isSome)

/-- Termination measure of the search loop: queue length plus the sum of all
    g-scores, absent keys counting as the (never attained) bound
    (length initial)!.  Every loop iteration strictly decreases it. -/
def measureOf (initial : Config) (s : AState) : Nat :=
  s.queue.length +
    (permsF initial).sum (fun c => (s.g_score c).getD (Nat.factorial initial.length))

/-- The run invariant of the modelled a_star_solver loop, relative to the
    configurations initial and goal it was started with. -/
structure AInv (initial goal : Config) (s : AState) : Prop where
  keys_perm : ∀ c, (s.g_score c).isSome = true → c.Perm initial
  g_bound : ∀ c n, s.g_score c = some n → n < (keysOf initial s).card
  g_init : s.g_score initial = some 0
  cf_keys : ∀ c, (s.g_score c).isSome = true → c ≠ initial → (s.came_from c).isSome = true
  cf_link : ∀ n p, s.came_from n = some p →
    ∃ gn gp, s.g_score n = some gn ∧ s.g_score p = some gp ∧ gp < gn ∧ moveRel p n
  queue_keyed : ∀ e ∈ s.queue, (s.g_score e.2).isSome = true
  queue_pri : ∀ e ∈ s.queue, e.2 ≠ initial →
    ∃ gc, s.g_score e.2 = some gc ∧ gc + mval e.2 goal ≤ e.1
  relaxed : ∀ c gc, s.g_score c = some gc →
    (∃ f, f ≤ gc + mval c goal ∧ (f, c) ∈ s.queue) ∨
    (∀ n, moveRel c n → ∃ gn, s.g_score n = some gn ∧ gn ≤ gc + 1)
  lower : ∀ c gc, s.g_score c = some gc → ∃ k, k ≤ gc ∧ Steps initial c k
  goal_queued : goal ≠ initial → (s.g_score goal).isSome = true →
    ∃ f, (f, goal) ∈ s.queue

/-- The neighbor a single direction of the expansion loop would produce:
    the same bounds check and swap as stepDir, with none when the direction
    is out of bounds or a subscript would fail. -/
def dirNeighbor (current : Config) (blank : Nat) (d : Int × Int) : Option Config :=
  let row := blank / GRID_SIZE
  let col := blank % GRID_SIZE
  let nr : Int := (row : Int) + d.1
  let nc : Int := (col : Int) + d.2
  if 0 ≤ nr ∧ nr < (GRID_SIZE : Int) ∧ 0 ≤ nc ∧ nc < (GRID_SIZE : Int) then
    let swap_idx : Nat := (nr * (GRID_SIZE : Int) + nc).toNat
    match current.get? swap_idx, current.get? blank with
    | some ts, some tb => some ((current.set blank ts).set swap_idx tb)
    | _, _ => none
  else none

/-- The invariant that holds in the middle of one expansion: like AInv, but
    the relaxation disjunction is only demanded away from the configuration
    being expanded (whose queue entry was just popped), and the g-score of
    that configuration is pinned. -/
structure MidInv (initial goal current : Config) (gc : Nat) (s : AState) : Prop where
  keys_perm : ∀ c, (s.g_score c).isSome = true → c.Perm initial
  g_bound : ∀ c n, s.g_score c = some n → n < (keysOf initial s).card
  g_init : s.g_score initial = some 0
  g_cur : s.g_score current = some gc
  cf_keys : ∀ c, (s.g_score c).isSome = true → c ≠ initial → (s.came_from c).isSome = true
  cf_link : ∀ n p, s.came_from n = some p →
    ∃ gn gp, s.g_score n = some gn ∧ s.g_score p = some gp ∧ gp < gn ∧ moveRel p n
  queue_keyed : ∀ e ∈ s.queue, (s.g_score e.2).isSome = true
  queue_pri : ∀ e ∈ s.queue, e.2 ≠ initial →
    ∃ v, s.g_score e.2 = some v ∧ v + mval e.2 goal ≤ e.1
  relaxedX : ∀ c v, s.g_score c = some v → c ≠ current →
    (∃ f, f ≤ v + mval c goal ∧ (f, c) ∈ s.queue) ∨
    (∀ n, moveRel c n → ∃ gn, s.g_score n = some gn ∧ gn ≤ v + 1)
  lower : ∀ c v, s.g_score c = some v → ∃ k, k ≤ v ∧ Steps initial c k
  goal_queued : goal ≠ initial → (s.g_score goal).isSome = true →
    ∃ f, (f, goal) ∈ s.queue

/- ----------------------------------------------------------------------
   Basic lemmas about the list-level helpers.
   ---------------------------------------------------------------------- -/

theorem pyIndex_isSome_iff {l : List Int} {t : Int} :
    (pyIndex l t).isSome = true ↔ t ∈ l := by
  induction l with
  | nil => simp [pyIndex]
  | cons x xs ih =>
    by_cases hx : x = t
    · simp [pyIndex, hx]
    · have hx' : ¬t = x := fun h => hx h.symm
      cases hpi : pyIndex xs t with
      | none => simp [pyIndex, hx, hpi, hx'] at ih ⊢; exact ih
      | some i => simp [pyIndex, hx, hpi, hx'] at ih ⊢; exact ih

theorem pyIndex_get {l : List Int} {t : Int} {i : Nat}
    (h : pyIndex l t = some i) : l.get? i = some t := by
  induction l generalizing i with
  | nil => simp [pyIndex] at h
  | cons x xs ih =>
    by_cases hx : x = t
    · simp [pyIndex, hx] at h; subst h; simp [hx]
    · simp [pyIndex, hx] at h
      obtain ⟨j, hj, rfl⟩ := h
      simpa using ih hj

theorem pyIndex_lt_length {l : List Int} {t : Int} {i : Nat}
    (h : pyIndex l t = some i) : i < l.length := by
  have := pyIndex_get h
  exact List.get?_eq_some.mp this |>.1

theorem pyIndex_append_cons {pre l : List Int} {t : Int} (h : t ∉ pre) :
    pyIndex (pre ++ t :: l) t = some pre.length := by
  induction pre with
  | nil => simp [pyIndex]
  | cons x xs ih =>
    have hx : ¬x = t := by rintro rfl; exact h (List.mem_cons_self _ _)
    have hx2 : t ∉ xs := fun hm => h (List.mem_cons_of_mem _ hm)
    simp [pyIndex, hx, ih hx2]

theorem mem_of_mem_enumFrom {l : List Int} {n i : Nat} {t : Int}
    (h : (i, t) ∈ enumFrom n l) : t ∈ l := by
  induction l generalizing n with
  | nil => simp [enumFrom] at h
  | cons x xs ih =>
    simp only [enumFrom, List.mem_cons] at h
    rcases h with h | h
    · cases h; exact List.mem_cons_self _ _
    · exact List.mem_cons_of_mem _ (ih h)

theorem mdGo_ok {goal : Config} {L : List (Nat × Int)}
    (h : ∀ p ∈ L, p.2 ≠ BLANK_TILE → (pyIndex goal p.2).isSome = true) :
    mdGo goal L = .ok (mvalGo goal L) := by
  induction L with
  | nil => rfl
  | cons p rest ih =>
    obtain ⟨i, t⟩ := p
    have hrest : ∀ q ∈ rest, q.2 ≠ BLANK_TILE → (pyIndex goal q.2).isSome = true :=
      fun q hq => h q (List.mem_cons_of_mem _ hq)
    by_cases ht : t = BLANK_TILE
    · simp [mdGo, mvalGo, ht, ih hrest]
    · have hs := h (i, t) (List.mem_cons_self _ _) ht
      obtain ⟨j, hj⟩ := Option.isSome_iff_exists.mp hs
      simp [mdGo, mvalGo, ht, hj, ih hrest, Except.map]

theorem manhattan_ok {state goal : Config}
    (h : ∀ t ∈ state, t ≠ BLANK_TILE → t ∈ goal) :
    manhattan_distance state goal = .ok (mval state goal) := by
  unfold manhattan_distance mval
  exact mdGo_ok fun p hp hb =>
    pyIndex_isSome_iff.mpr (h p.2 (mem_of_mem_enumFrom hp) hb)

theorem cdist_self (j : Nat) : cdist j j = 0 := by simp [cdist]

/- ----------------------------------------------------------------------
   Lemmas about validity.
   ---------------------------------------------------------------------- -/

theorem ValidConfig.nodup {c : Config} (h : ValidConfig c) : c.Nodup :=
  h.nodup_iff.mpr (by decide)

theorem ValidConfig.len {c : Config} (h : ValidConfig c) : c.length = 9 :=
  (List.Perm.length_eq h).trans (by decide)

theorem ValidConfig.blank_mem {c : Config} (h : ValidConfig c) : BLANK_TILE ∈ c :=
  h.mem_iff.mpr (by decide)

theorem ValidConfig.perm {c d : Config} (hc : ValidConfig c) (hd : ValidConfig d) :
    c.Perm d := hc.trans hd.symm

/- ----------------------------------------------------------------------
   Moves: decidability and elementary facts about Steps.
   ---------------------------------------------------------------------- -/

theorem moveRel_iff_moveRelB {c c' : Config} : moveRel c c' ↔ moveRelB c c' = true := by
  unfold moveRel moveRelB
  simp only [List.any_eq_true, List.mem_range, Bool.and_eq_true, beq_iff_eq,
    decide_eq_true_eq]
  constructor
  · rintro ⟨b, s, h1, h2, h3⟩
    exact ⟨b, h2.1, s, h2.2.1, ⟨h1, h2⟩, h3⟩
  · rintro ⟨b, _, s, _, ⟨h1, h2⟩, h3⟩
    exact ⟨b, s, h1, h2, h3⟩

instance (c c' : Config) : Decidable (moveRel c c') :=
  decidable_of_iff _ moveRel_iff_moveRelB.symm

theorem steps_zero {a b : Config} (h : Steps a b 0) : a = b := by
  cases h; rfl

theorem steps_one {a b : Config} (h : Steps a b 1) : moveRel a b := by
  cases h with
  | tail h0 mv => cases h0; exact mv

/- ----------------------------------------------------------------------
   The heuristic agrees with its specification on valid configurations.
   ---------------------------------------------------------------------- -/

theorem mvalGo_spec {goal : Config} :
    ∀ (pre suf : List Int), (pre ++ suf).Nodup →
    mvalGo goal (enumFrom pre.length suf) =
      ((suf.filter (fun t => t != BLANK_TILE)).map
        (fun t => cdist ((pyIndex goal t).getD 0)
          ((pyIndex (pre ++ suf) t).getD 0))).sum := by
  intro pre suf
  induction suf generalizing pre with
  | nil => intro _; simp [mvalGo, enumFrom]
  | cons t rest ih =>
    intro hnd
    have ht_pre : t ∉ pre := by
      have h := List.nodup_append.mp hnd
      exact fun hm => h.2.2 hm (List.mem_cons_self _ _)
    have hidx : pyIndex (pre ++ t :: rest) t = some pre.length :=
      pyIndex_append_cons ht_pre
    have hassoc : pre ++ t :: rest = (pre ++ [t]) ++ rest := by simp
    have hnd' : ((pre ++ [t]) ++ rest).Nodup := by rw [← hassoc]; exact hnd
    have hlen : (pre ++ [t]).length = pre.length + 1 := by simp
    have ihr := ih (pre ++ [t]) hnd'
    rw [hlen] at ihr
    rw [← hassoc] at ihr
    simp only [enumFrom, mvalGo]
    by_cases hb : t = BLANK_TILE
    · have hbf : (t != BLANK_TILE) = false := by simpa using hb
      rw [if_pos hb, List.filter_cons_of_neg (by simp [hbf]), ihr, Nat.zero_add]
    · have hbt : (t != BLANK_TILE) = true := by simpa using hb
      rw [if_neg hb, List.filter_cons_of_pos (by simp [hbt]), List.map_cons,
        List.sum_cons, hidx, Option.getD_some, ihr]

theorem manhattan_eq_spec {state goal : Config}
    (hs : ValidConfig state) (hg : ValidConfig goal) :
    manhattan_distance state goal = .ok (specManhattan state goal) := by
  have hmem : ∀ t ∈ state, t ≠ BLANK_TILE → t ∈ goal :=
    fun t ht _ => (hs.perm hg).mem_iff.mp ht
  rw [manhattan_ok hmem]
  have h := @mvalGo_spec goal [] state (by simpa using hs.nodup)
  simp only [List.nil_append, List.length_nil] at h
  unfold mval specManhattan
  rw [h]

/- ----------------------------------------------------------------------
   Claim theorems that need no loop machinery.
   ---------------------------------------------------------------------- -/

/-- C2, counterexample: is_solvable does not implement the width-dependent
    rule.  On the 2x2 configuration [blank,1,2,3] with goal [1,2,3,blank]
    the code answers true (inversions are even) while the width-dependent
    rule of the claim answers false (inversions plus blank row distance is
    odd). -/
theorem is_solvable_width_cex :
    is_solvable [-1, 1, 2, 3] = true ∧
    spec_is_solvable 2 [-1, 1, 2, 3] [1, 2, 3, -1] = false := by
  constructor <;> decide

/-- C2, amended: is_solvable ignores the grid width and the blank position
    entirely and answers true exactly when the inversion count of the
    non-blank tiles is even (the odd-width rule); in particular it answers
    false on [2,1,3,4,5,6,7,8,blank]. -/
theorem is_solvable_parity_only :
    (∀ tiles : Config, is_solvable tiles = true ↔
      Even (inversions (tiles.filter (fun t => t != BLANK_TILE)))) ∧
    is_solvable [2, 1, 3, 4, 5, 6, 7, 8, -1] = false := by
  refine ⟨fun tiles => ?_, by decide⟩
  simp [is_solvable, Nat.even_iff]

/-- C3, counterexample: the solver validates nothing.  Called on the
    malformed configuration [1,1,2,blank] (duplicate identifier 1) as both
    start and goal, it returns a normal empty result instead of raising
    InvalidConfiguration. -/
theorem malformed_input_cex :
    ¬ ([1, 1, 2, -1] : Config).Nodup ∧
    a_star_solver [1, 1, 2, -1] [1, 1, 2, -1] = .ok [] ∧
    a_star_solver [1, 1, 2, -1] [1, 1, 2, -1] ≠ .error .invalidConfiguration := by
  refine ⟨by decide, rfl, fun h => ?_⟩
  have h2 : (Except.ok [] : Except PyErr (List Config)) =
      .error .invalidConfiguration := h
  exact Except.noConfusion h2

/-- C3, amended: malformed input is not validated and no
    InvalidConfiguration error exists in the code; depending on the input
    the call either returns a normal result (duplicate identifiers), or
    propagates an IndexError from list subscription (length not a perfect
    square of the fixed grid size), or a ValueError from list.index
    (identifier sets differing between start and goal). -/
theorem malformed_input_behavior :
    a_star_solver [1, 1, 2, -1] [1, 1, 2, -1] = .ok [] ∧
    a_star_solver [1, 2, -1] [2, 1, -1] = .error .indexError ∧
    a_star_solver [5, 2, -1] [1, 2, -1] = .error .valueError :=
  ⟨rfl, rfl, rfl⟩

/-- C4, counterexample: on start [1,2,3,4,blank,6,7,5,8] and the canonical
    goal the solver returns a path of length 2, not 3: the optimum claimed
    by the spec is wrong. -/
theorem scenario_length_cex :
    a_star_solver [1, 2, 3, 4, -1, 6, 7, 5, 8] canonical3 =
      .ok [[1, 2, 3, 4, 5, 6, 7, -1, 8], [1, 2, 3, 4, 5, 6, 7, 8, -1]] ∧
    ([[1, 2, 3, 4, 5, 6, 7, -1, 8], [1, 2, 3, 4, 5, 6, 7, 8, -1]] : List Config).length ≠ 3 :=
  ⟨rfl, by decide⟩

/-- C4, amended: on the concrete scenario is_solvable answers true and the
    solver returns a non-empty sequence ending in the goal whose length is
    2, which is the true optimal move count (no sequence of fewer than two
    legal moves reaches the goal). -/
theorem scenario_behavior :
    is_solvable [1, 2, 3, 4, -1, 6, 7, 5, 8] = true ∧
    a_star_solver [1, 2, 3, 4, -1, 6, 7, 5, 8] canonical3 =
      .ok [[1, 2, 3, 4, 5, 6, 7, -1, 8], [1, 2, 3, 4, 5, 6, 7, 8, -1]] ∧
    ([[1, 2, 3, 4, 5, 6, 7, -1, 8], [1, 2, 3, 4, 5, 6, 7, 8, -1]] : List Config).getLast? =
      some canonical3 ∧
    ([[1, 2, 3, 4, 5, 6, 7, -1, 8], [1, 2, 3, 4, 5, 6, 7, 8, -1]] : List Config).length = 2 ∧
    (∀ k, Steps [1, 2, 3, 4, -1, 6, 7, 5, 8] canonical3 k → 2 ≤ k) := by
  refine ⟨by decide, rfl, by decide, by decide, fun k hk => ?_⟩
  match k, hk with
  | 0, h => exact absurd (steps_zero h) (by decide)
  | 1, h => exact absurd (steps_one h) (by decide)
  | n + 2, _ => omega

/-- C5: on any valid configuration used as both start and goal, the solver
    pops the start, recognises it as the goal, and the reconstruction loop
    body never runs, so the result is the empty sequence, not a
    single-element one. -/
theorem solve_self_empty (start : Config) (h : ValidConfig start) :
    a_star_solver start start = .ok [] := by
  have hmd : manhattan_distance start start = .ok (mval start start) :=
    manhattan_ok (fun t ht _ => ht)
  simp only [a_star_solver, hmd]
  have hB : Nat.factorial start.length * Nat.factorial start.length + 2 =
      (Nat.factorial start.length * Nat.factorial start.length + 1) + 1 := rfl
  rw [hB]
  simp only [aLoop, popMin]
  obtain ⟨m, hm⟩ : ∃ m, Nat.factorial start.length = m + 1 :=
    ⟨Nat.factorial start.length - 1, by have := Nat.factorial_pos start.length; omega⟩
  rw [hm]
  simp [reconstruct]

/-- Witness for C5 at the canonical configuration. -/
theorem solve_self_empty_witness :
    ValidConfig canonical3 ∧ a_star_solver canonical3 canonical3 = .ok [] :=
  ⟨by decide, solve_self_empty canonical3 (by decide)⟩

/-- C9: on valid configurations manhattan_distance succeeds and returns the
    sum over every non-blank tile of the Manhattan grid distance between
    the position of the tile in the state and its position in the goal; in
    particular it returns 0 on (goal, goal).  The modelled function is a
    pure function of its two arguments. -/
theorem manhattan_spec (state goal : Config)
    (hs : ValidConfig state) (hg : ValidConfig goal) :
    manhattan_distance state goal = .ok (specManhattan state goal) ∧
    manhattan_distance goal goal = .ok 0 := by
  refine ⟨manhattan_eq_spec hs hg, ?_⟩
  have h0 : specManhattan goal goal = 0 := by
    unfold specManhattan
    apply List.sum_eq_zero
    intro x hx
    simp only [List.mem_map] at hx
    obtain ⟨t, _, rfl⟩ := hx
    exact cdist_self _
  rw [manhattan_eq_spec hg hg, h0]

/-- Witness for C9 at a concrete valid pair. -/
theorem manhattan_spec_witness :
    ValidConfig [2, 1, 3, 4, 5, 6, 7, 8, -1] ∧ ValidConfig canonical3 ∧
    (manhattan_distance [2, 1, 3, 4, 5, 6, 7, 8, -1] canonical3 =
        .ok (specManhattan [2, 1, 3, 4, 5, 6, 7, 8, -1] canonical3) ∧
      manhattan_distance canonical3 canonical3 = .ok 0) :=
  ⟨by decide, by decide, manhattan_spec _ _ (by decide) (by decide)⟩

/-- C10: the verdict of is_solvable is computed from the blank-stripped
    tile sequence alone, so two valid configurations with equal stripped
    sequences get the same verdict; the blank position has no influence. -/
theorem solvable_blank_independent (t1 t2 : Config)
    (h1 : ValidConfig t1) (h2 : ValidConfig t2)
    (h : t1.filter (fun t => t != BLANK_TILE) = t2.filter (fun t => t != BLANK_TILE)) :
    is_solvable t1 = is_solvable t2 := by
  unfold is_solvable; rw [h]

/-- Witness for C10: two valid configurations differing only in the blank
    position. -/
theorem solvable_blank_independent_witness :
    ValidConfig [-1, 1, 2, 3, 4, 5, 6, 7, 8] ∧ ValidConfig [1, 2, 3, 4, -1, 5, 6, 7, 8] ∧
    ([-1, 1, 2, 3, 4, 5, 6, 7, 8] : Config).filter (fun t => t != BLANK_TILE) =
      ([1, 2, 3, 4, -1, 5, 6, 7, 8] : Config).filter (fun t => t != BLANK_TILE) ∧
    is_solvable [-1, 1, 2, 3, 4, 5, 6, 7, 8] = is_solvable [1, 2, 3, 4, -1, 5, 6, 7, 8] :=
  ⟨by decide, by decide, by decide,
    solvable_blank_independent _ _ (by decide) (by decide) (by decide)⟩

/- ----------------------------------------------------------------------
   Inversion parity is invariant under a legal move (claim C8).
   ---------------------------------------------------------------------- -/

theorem inversions_append (A B : List Int) :
    inversions (A ++ B) = inversions A + inversions B +
      (A.map (fun a => B.countP (fun y => decide (y < a)))).sum := by
  induction A with
  | nil => simp [inversions]
  | cons x A ih =>
    simp only [List.cons_append, inversions, List.append_eq, List.countP_append,
      List.map_cons, List.sum_cons, ih]
    omega

theorem sum_map_add (f g : Int → Nat) (A : List Int) :
    (A.map (fun a => f a + g a)).sum = (A.map f).sum + (A.map g).sum := by
  induction A with
  | nil => rfl
  | cons a A ih => simp only [List.map_cons, List.sum_cons, ih]; omega

theorem sum_map_boole (p : Int → Bool) (M : List Int) :
    (M.map (fun m => if p m then 1 else 0)).sum = M.countP p := by
  induction M with
  | nil => rfl
  | cons m M ih =>
    simp only [List.map_cons, List.sum_cons, List.countP_cons, ih]
    omega

theorem inversions_move (A M C : List Int) (x : Int) :
    inversions (A ++ x :: (M ++ C)) + M.countP (fun y => decide (x < y)) =
    inversions (A ++ (M ++ x :: C)) + M.countP (fun y => decide (y < x)) := by
  have h1 := inversions_append A (x :: (M ++ C))
  have h2 := inversions_append A (M ++ x :: C)
  have h3 := inversions_append M (x :: C)
  have h4 := inversions_append M C
  simp only [inversions, List.countP_append, List.countP_cons] at h1 h2 h3
  rw [h4] at h1
  rw [h3] at h2
  simp only [sum_map_add (fun a => List.countP (fun y => decide (y < a)) M +
        List.countP (fun y => decide (y < a)) C)
      (fun a => if decide (x < a) then 1 else 0),
    sum_map_add (fun a => List.countP (fun y => decide (y < a)) M)
      (fun a => List.countP (fun y => decide (y < a)) C)] at h1
  simp only [sum_map_add (fun a => List.countP (fun y => decide (y < a)) M)
      (fun a => List.countP (fun y => decide (y < a)) C +
        if decide (x < a) then 1 else 0),
    sum_map_add (fun a => List.countP (fun y => decide (y < a)) C)
      (fun a => if decide (x < a) then 1 else 0)] at h2
  simp only [sum_map_boole] at h1 h2
  omega

theorem countP_lt_add_gt (x : Int) (M : List Int) (h : ∀ m ∈ M, m ≠ x) :
    M.countP (fun y => decide (y < x)) + M.countP (fun y => decide (x < y)) =
      M.length := by
  induction M with
  | nil => rfl
  | cons m M ih =>
    have hm : m ≠ x := h m (List.mem_cons_self _ _)
    have hM : ∀ a ∈ M, a ≠ x := fun a ha => h a (List.mem_cons_of_mem _ ha)
    have hih := ih hM
    simp only [List.countP_cons, List.length_cons]
    rcases lt_trichotomy m x with hl | he | hg
    · have d1 : (decide (m < x)) = true := by simpa using hl
      have d2 : (decide (x < m)) = false := by simpa using not_lt_of_gt hl
      simp [d1, d2]
      omega
    · exact absurd he hm
    · have d1 : (decide (m < x)) = false := by simpa using not_lt_of_gt hg
      have d2 : (decide (x < m)) = true := by simpa using hg
      simp [d1, d2]
      omega

theorem inversions_move_parity (A M C : List Int) (x : Int)
    (hd : ∀ m ∈ M, m ≠ x) (hev : M.length % 2 = 0) :
    inversions (A ++ x :: (M ++ C)) % 2 = inversions (A ++ (M ++ x :: C)) % 2 := by
  have h1 := inversions_move A M C x
  have h2 := countP_lt_add_gt x M hd
  omega

theorem set_len_append (T rest : List Int) (a v : Int) :
    (T ++ a :: rest).set T.length v = T ++ v :: rest := by
  induction T with
  | nil => rfl
  | cons t T ih => simpa [List.set] using ih

theorem getD_len_append (T rest : List Int) (a : Int) :
    (T ++ a :: rest).getD T.length 0 = a := by
  induction T with
  | nil => rfl
  | cons t T ih => simpa using ih

theorem decomp_two (c : List Int) (i j : Nat) (hij : i < j) (hj : j < c.length) :
    c = c.take i ++ c.getD i 0 ::
        (((c.drop (i + 1)).take (j - i - 1)) ++ c.getD j 0 :: c.drop (j + 1)) ∧
    (c.take i).length = i ∧
    ((c.drop (i + 1)).take (j - i - 1)).length = j - i - 1 := by
  have hi : i < c.length := lt_trans hij hj
  have hdi : c.drop i = c.getD i 0 :: c.drop (i + 1) := by
    rw [List.getD_eq_getElem _ _ hi]
    exact List.drop_eq_getElem_cons hi
  have hsplit : (c.drop (i + 1)).take (j - i - 1) ++ (c.drop (i + 1)).drop (j - i - 1) =
      c.drop (i + 1) := List.take_append_drop _ _
  have hdd : (c.drop (i + 1)).drop (j - i - 1) = c.drop j := by
    rw [List.drop_drop]
    congr 1
    omega
  have hdj : c.drop j = c.getD j 0 :: c.drop (j + 1) := by
    rw [List.getD_eq_getElem _ _ hj]
    exact List.drop_eq_getElem_cons hj
  refine ⟨?_, ?_, ?_⟩
  · conv_lhs => rw [← List.take_append_drop i c, hdi, ← hsplit, hdd, hdj]
  · rw [List.length_take]
    omega
  · rw [List.length_take, List.length_drop]
    omega

theorem swapL_append (T M D : List Int) (vi vj : Int) :
    swapL (T ++ vi :: (M ++ vj :: D)) T.length (T.length + 1 + M.length) =
      T ++ vj :: (M ++ vi :: D) := by
  have hassoc : T ++ vi :: (M ++ vj :: D) = (T ++ vi :: M) ++ vj :: D := by simp
  have hlen2 : (T ++ vi :: M).length = T.length + 1 + M.length := by
    simp only [List.length_append, List.length_cons]
    omega
  have hgi : (T ++ vi :: (M ++ vj :: D)).getD T.length 0 = vi := getD_len_append _ _ _
  have hgj : (T ++ vi :: (M ++ vj :: D)).getD (T.length + 1 + M.length) 0 = vj := by
    rw [hassoc, ← hlen2]
    exact getD_len_append _ _ _
  unfold swapL
  rw [hgi, hgj, set_len_append]
  have hassoc2 : T ++ vj :: (M ++ vj :: D) = (T ++ vj :: M) ++ vj :: D := by simp
  have hlen3 : (T ++ vj :: M).length = T.length + 1 + M.length := by
    simp only [List.length_append, List.length_cons]
    omega
  rw [hassoc2, ← hlen3, set_len_append]
  simp

theorem swapL_comm (l : List Int) (i j : Nat) (h : i ≠ j) :
    swapL l i j = swapL l j i := by
  unfold swapL
  exact List.set_comm _ _ _ h

theorem moveRel_cases {c c' : Config} (hlen : c.length = 9) (hm : moveRel c c') :
    ∃ i j, i < j ∧ (j = i + 1 ∨ j = i + 3) ∧ j < 9 ∧
      (c.getD i 0 = BLANK_TILE ∨ c.getD j 0 = BLANK_TILE) ∧
      c' = c.take i ++ c.getD j 0 ::
        (((c.drop (i + 1)).take (j - i - 1)) ++ c.getD i 0 :: c.drop (j + 1)) ∧
      c = c.take i ++ c.getD i 0 ::
        (((c.drop (i + 1)).take (j - i - 1)) ++ c.getD j 0 :: c.drop (j + 1)) ∧
      ((c.drop (i + 1)).take (j - i - 1)).length = j - i - 1 ∧
      (c.take i).length = i := by
  obtain ⟨b, s, hb, hadj, rfl⟩ := hm
  have hgb : c.getD b 0 = BLANK_TILE := by
    rw [List.getD_eq_getD_get?, hb]
    rfl
  obtain ⟨hb9, hs9, hcase⟩ := hadj
  have hswap : ∀ i j, i < j → j < 9 → (j = i + 1 ∨ j = i + 3) →
      (i = b ∧ j = s ∨ i = s ∧ j = b) →
      ∃ i' j', i' < j' ∧ (j' = i' + 1 ∨ j' = i' + 3) ∧ j' < 9 ∧
      (c.getD i' 0 = BLANK_TILE ∨ c.getD j' 0 = BLANK_TILE) ∧
      swapL c b s = c.take i' ++ c.getD j' 0 ::
        (((c.drop (i' + 1)).take (j' - i' - 1)) ++ c.getD i' 0 :: c.drop (j' + 1)) ∧
      c = c.take i' ++ c.getD i' 0 ::
        (((c.drop (i' + 1)).take (j' - i' - 1)) ++ c.getD j' 0 :: c.drop (j' + 1)) ∧
      ((c.drop (i' + 1)).take (j' - i' - 1)).length = j' - i' - 1 ∧
      (c.take i').length = i' := by
    intro i j hij hj9 hd hbs
    have hjlen : j < c.length := by omega
    obtain ⟨hdec, hT, hM⟩ := decomp_two c i j hij hjlen
    have hsw : swapL c i j = c.take i ++ c.getD j 0 ::
        (((c.drop (i + 1)).take (j - i - 1)) ++ c.getD i 0 :: c.drop (j + 1)) := by
      have happ := swapL_append (c.take i) ((c.drop (i + 1)).take (j - i - 1))
        (c.drop (j + 1)) (c.getD i 0) (c.getD j 0)
      rw [hT, hM] at happ
      have hjeq : i + 1 + (j - i - 1) = j := by omega
      rw [hjeq] at happ
      calc swapL c i j
          = swapL (c.take i ++ c.getD i 0 ::
              (((c.drop (i + 1)).take (j - i - 1)) ++ c.getD j 0 :: c.drop (j + 1))) i j := by
            conv_lhs => rw [hdec]
        _ = _ := happ
    rcases hbs with ⟨rfl, rfl⟩ | ⟨rfl, rfl⟩
    · exact ⟨i, j, hij, hd, hj9, Or.inl hgb, hsw, hdec, hM, hT⟩
    · have hcomm : swapL c j i = swapL c i j := swapL_comm c j i (by omega)
      rw [hcomm]
      exact ⟨i, j, hij, hd, hj9, Or.inr hgb, hsw, hdec, hM, hT⟩
  rcases hcase with ⟨hrow, hc1 | hc1⟩ | ⟨hcol, hc1 | hc1⟩
  · exact hswap b s (by omega) (by omega) (by omega) (Or.inl ⟨rfl, rfl⟩)
  · exact hswap s b (by omega) (by omega) (by omega) (Or.inr ⟨rfl, rfl⟩)
  · have : s = b + 3 := by omega
    exact hswap b s (by omega) (by omega) (by omega) (Or.inl ⟨rfl, rfl⟩)
  · have : b = s + 3 := by omega
    exact hswap s b (by omega) (by omega) (by omega) (Or.inr ⟨rfl, rfl⟩)

theorem perm_swap_core (T M D : List Int) (vi vj : Int) :
    (T ++ vj :: (M ++ vi :: D)).Perm (T ++ vi :: (M ++ vj :: D)) := by
  apply List.Perm.append_left
  refine List.Perm.trans (List.Perm.cons _ List.perm_middle) ?_
  refine List.Perm.trans (List.Perm.swap _ _ _) ?_
  exact List.Perm.cons _ List.perm_middle.symm

theorem moveRel_perm {c c' : Config} (hlen : c.length = 9) (hm : moveRel c c') :
    c'.Perm c := by
  obtain ⟨i, j, _, _, _, _, hc', hc, _, _⟩ := moveRel_cases hlen hm
  rw [hc']
  conv_rhs => rw [hc]
  exact perm_swap_core _ _ _ _ _

theorem ValidConfig.of_moveRel {c c' : Config} (hv : ValidConfig c) (hm : moveRel c c') :
    ValidConfig c' := (moveRel_perm hv.len hm).trans hv

theorem steps_valid {a b : Config} {n : Nat} (hv : ValidConfig a) (h : Steps a b n) :
    ValidConfig b := by
  induction h with
  | refl => exact hv
  | tail _ mv ih => exact ih.of_moveRel mv

theorem is_solvable_swap_core (T M D : List Int) (vi vj : Int)
    (hnd : (T ++ vi :: (M ++ vj :: D)).Nodup)
    (hcnt : List.count BLANK_TILE (T ++ vi :: (M ++ vj :: D)) = 1)
    (hblank : vi = BLANK_TILE ∨ vj = BLANK_TILE)
    (hMeven : M.length % 2 = 0) :
    is_solvable (T ++ vj :: (M ++ vi :: D)) = is_solvable (T ++ vi :: (M ++ vj :: D)) := by
  have hmid : (vi :: (M ++ vj :: D)).Nodup := (List.nodup_append.mp hnd).2.1
  have hdisj : ∀ m ∈ M, m ∉ (vj :: D) := by
    have h2 : (M ++ vj :: D).Nodup := (List.nodup_cons.mp hmid).2
    exact fun m hm1 hm2 => (List.nodup_append.mp h2).2.2 hm1 hm2
  have hvi_nm : vi ∉ M := by
    have h1 : vi ∉ M ++ vj :: D := (List.nodup_cons.mp hmid).1
    exact fun hmem => h1 (List.mem_append_left _ hmem)
  have hsum := hcnt
  rw [List.count_append, List.count_cons, List.count_append, List.count_cons] at hsum
  rcases hblank with rfl | rfl
  · -- the blank is vi; x := vj is the moved tile
    rw [if_pos (show (BLANK_TILE == BLANK_TILE) = true by simp)] at hsum
    have hvj_ne : vj ≠ BLANK_TILE := by
      intro heq
      rw [if_pos (show (vj == BLANK_TILE) = true by simp [heq])] at hsum
      omega
    rw [if_neg (show ¬(vj == BLANK_TILE) = true by simp [hvj_ne])] at hsum
    have hM0 : List.count BLANK_TILE M = 0 := by omega
    have hMne : ∀ m ∈ M, m ≠ BLANK_TILE := by
      intro m hmem heq
      rw [List.count_eq_zero] at hM0
      exact hM0 (heq ▸ hmem)
    have hfM : M.filter (fun t => t != BLANK_TILE) = M :=
      List.filter_eq_self.mpr fun a ha => by simpa using hMne a ha
    have e1 : (T ++ vj :: (M ++ BLANK_TILE :: D)).filter (fun t => t != BLANK_TILE) =
        T.filter (fun t => t != BLANK_TILE) ++ vj ::
          (M ++ D.filter (fun t => t != BLANK_TILE)) := by
      simp [List.filter_append, List.filter_cons, hvj_ne, hfM]
    have e2 : (T ++ BLANK_TILE :: (M ++ vj :: D)).filter (fun t => t != BLANK_TILE) =
        T.filter (fun t => t != BLANK_TILE) ++
          (M ++ vj :: D.filter (fun t => t != BLANK_TILE)) := by
      simp [List.filter_append, List.filter_cons, hvj_ne, hfM]
    unfold is_solvable
    rw [e1, e2]
    have hp := inversions_move_parity (T.filter (fun t => t != BLANK_TILE)) M
      (D.filter (fun t => t != BLANK_TILE)) vj
      (fun m hmm heq => hdisj m hmm (heq ▸ List.mem_cons_self _ _)) hMeven
    rw [hp]
  · -- the blank is vj; x := vi is the moved tile
    rw [if_pos (show (BLANK_TILE == BLANK_TILE) = true by simp)] at hsum
    have hvi_ne : vi ≠ BLANK_TILE := by
      intro heq
      rw [if_pos (show (vi == BLANK_TILE) = true by simp [heq])] at hsum
      omega
    rw [if_neg (show ¬(vi == BLANK_TILE) = true by simp [hvi_ne])] at hsum
    have hM0 : List.count BLANK_TILE M = 0 := by omega
    have hMne : ∀ m ∈ M, m ≠ BLANK_TILE := by
      intro m hmem heq
      rw [List.count_eq_zero] at hM0
      exact hM0 (heq ▸ hmem)
    have hfM : M.filter (fun t => t != BLANK_TILE) = M :=
      List.filter_eq_self.mpr fun a ha => by simpa using hMne a ha
    have e1 : (T ++ BLANK_TILE :: (M ++ vi :: D)).filter (fun t => t != BLANK_TILE) =
        T.filter (fun t => t != BLANK_TILE) ++
          (M ++ vi :: D.filter (fun t => t != BLANK_TILE)) := by
      simp [List.filter_append, List.filter_cons, hvi_ne, hfM]
    have e2 : (T ++ vi :: (M ++ BLANK_TILE :: D)).filter (fun t => t != BLANK_TILE) =
        T.filter (fun t => t != BLANK_TILE) ++ vi ::
          (M ++ D.filter (fun t => t != BLANK_TILE)) := by
      simp [List.filter_append, List.filter_cons, hvi_ne, hfM]
    unfold is_solvable
    rw [e1, e2]
    have hp := inversions_move_parity (T.filter (fun t => t != BLANK_TILE)) M
      (D.filter (fun t => t != BLANK_TILE)) vi
      (fun m hmm heq => hvi_nm (heq ▸ hmm)) hMeven
    rw [hp]

theorem is_solvable_moveRel {c c' : Config} (hv : ValidConfig c) (hm : moveRel c c') :
    is_solvable c' = is_solvable c := by
  obtain ⟨i, j, hij, hd, hj9, hblank, hc', hc, hM, hT⟩ := moveRel_cases hv.len hm
  have hnd : c.Nodup := hv.nodup
  have hcount : List.count BLANK_TILE c = 1 := by
    rw [List.Perm.count_eq hv]
    decide
  rw [hc] at hnd hcount
  rw [hc']
  conv_rhs => rw [hc]
  exact is_solvable_swap_core _ _ _ _ _ hnd hcount hblank
    (by rw [hM]; rcases hd with rfl | rfl <;> omega)

/-- C8: the solvability verdict is an invariant of the move relation: every
    configuration reachable from a valid goal by legal blank-swap moves gets
    the same is_solvable verdict as the goal, because a single legal move
    never changes the inversion parity of the blank-stripped sequence. -/
theorem solvable_move_invariant (goal C : Config) (n : Nat) (hg : ValidConfig goal)
    (h : Steps goal C n) : is_solvable C = is_solvable goal := by
  induction h with
  | refl => rfl
  | tail hs mv ih => exact (is_solvable_moveRel (steps_valid hg hs) mv).trans ih

/-- Witness for C8: one legal move away from the canonical goal. -/
theorem solvable_move_invariant_witness :
    ValidConfig canonical3 ∧
    Steps canonical3 [1, 2, 3, 4, 5, 6, 7, -1, 8] 1 ∧
    is_solvable [1, 2, 3, 4, 5, 6, 7, -1, 8] = is_solvable canonical3 :=
  ⟨by decide, Steps.tail (Steps.refl _) (by decide),
    solvable_move_invariant _ _ 1 (by decide) (Steps.tail (Steps.refl _) (by decide))⟩

/- ----------------------------------------------------------------------
   Lemmas about the queue model and dictionary updates.
   ---------------------------------------------------------------------- -/

theorem fupd_self {β : Type} (f : Config → β) (k : Config) (v : β) : fupd f k v k = v := by
  simp [fupd]

theorem fupd_ne {β : Type} (f : Config → β) {k x : Config} (v : β) (h : x ≠ k) :
    fupd f k v x = f x := by
  simp [fupd, h]

theorem tupleLe_fst_le {a b : Nat × Config} (h : tupleLe a b = true) : a.1 ≤ b.1 := by
  unfold tupleLe at h
  simp only [Bool.or_eq_true, Bool.and_eq_true, decide_eq_true_eq, beq_iff_eq] at h
  rcases h with h | ⟨h, _⟩ <;> omega

theorem tupleLe_fst_ge {a b : Nat × Config} (h : tupleLe a b = false) : b.1 ≤ a.1 := by
  unfold tupleLe at h
  rcases Bool.or_eq_false_iff.mp h with ⟨h1, _⟩
  have : ¬(a.1 < b.1) := by simpa using h1
  omega

theorem popMin_none {l : List (Nat × Config)} (h : popMin l = none) : l = [] := by
  cases l with
  | nil => rfl
  | cons e es =>
    cases hp : popMin es with
    | none => simp [popMin, hp] at h
    | some m =>
      obtain ⟨mm, mrest⟩ := m
      simp only [popMin, hp] at h
      split at h <;> simp at h

theorem popMin_perm {l : List (Nat × Config)} {e : Nat × Config}
    {rest : List (Nat × Config)} (h : popMin l = some (e, rest)) :
    l.Perm (e :: rest) := by
  induction l generalizing e rest with
  | nil => simp [popMin] at h
  | cons x xs ih =>
    cases hp : popMin xs with
    | none =>
      simp only [popMin, hp, Option.some.injEq, Prod.mk.injEq] at h
      obtain ⟨rfl, rfl⟩ := h
      rw [popMin_none hp]
    | some m =>
      obtain ⟨mm, mrest⟩ := m
      simp only [popMin, hp] at h
      by_cases hc : tupleLe x mm = true
      · rw [if_pos hc] at h
        simp only [Option.some.injEq, Prod.mk.injEq] at h
        obtain ⟨rfl, rfl⟩ := h
        exact List.Perm.refl _
      · rw [if_neg hc] at h
        simp only [Option.some.injEq, Prod.mk.injEq] at h
        obtain ⟨rfl, rfl⟩ := h
        exact ((ih hp).cons x).trans (List.Perm.swap _ _ _)

theorem popMin_min {l : List (Nat × Config)} {e : Nat × Config}
    {rest : List (Nat × Config)} (h : popMin l = some (e, rest)) :
    ∀ x ∈ l, e.1 ≤ x.1 := by
  induction l generalizing e rest with
  | nil => simp [popMin] at h
  | cons x xs ih =>
    cases hp : popMin xs with
    | none =>
      simp only [popMin, hp, Option.some.injEq, Prod.mk.injEq] at h
      obtain ⟨rfl, _⟩ := h
      rw [popMin_none hp]
      intro y hy
      rcases List.mem_cons.mp hy with rfl | hy2
      · exact le_refl _
      · simp at hy2
    | some m =>
      obtain ⟨mm, mrest⟩ := m
      simp only [popMin, hp] at h
      have hmin := ih hp
      by_cases hc : tupleLe x mm = true
      · rw [if_pos hc] at h
        simp only [Option.some.injEq, Prod.mk.injEq] at h
        obtain ⟨rfl, _⟩ := h
        intro y hy
        rcases List.mem_cons.mp hy with rfl | hy2
        · exact le_refl _
        · exact le_trans (tupleLe_fst_le hc) (hmin y hy2)
      · rw [if_neg hc] at h
        simp only [Option.some.injEq, Prod.mk.injEq] at h
        obtain ⟨rfl, _⟩ := h
        intro y hy
        rcases List.mem_cons.mp hy with rfl | hy2
        · exact tupleLe_fst_ge (by simpa using hc)
        · exact hmin y hy2

theorem getD_of_get? {l : List Int} {i : Nat} {v : Int} (h : l.get? i = some v) :
    l.getD i 0 = v := by
  rw [List.getD_eq_getD_get?, h]
  rfl

theorem pyIndex_unique {l : List Int} {t : Int} {i k : Nat} (hnd : l.Nodup)
    (hget : l.get? i = some t) (hk : pyIndex l t = some k) : i = k := by
  induction l generalizing i k with
  | nil => simp at hget
  | cons x xs ih =>
    obtain ⟨hx, hnd'⟩ := List.nodup_cons.mp hnd
    by_cases hxt : x = t
    · subst hxt
      simp [pyIndex] at hk
      subst hk
      cases i with
      | zero => rfl
      | succ m =>
        exfalso
        exact hx (List.get?_mem (by simpa using hget))
    · simp [pyIndex, hxt] at hk
      obtain ⟨k', hk', rfl⟩ := hk
      cases i with
      | zero =>
        simp at hget
        exact absurd hget hxt
      | succ m =>
        have := ih hnd' (by simpa using hget) hk'
        omega

/- ----------------------------------------------------------------------
   Bridging the expansion arithmetic with the abstract move relation.
   ---------------------------------------------------------------------- -/

theorem dirNeighbor_moveRel {current n : Config} {blank : Nat} {d : Int × Int}
    (hlen : current.length = 9)
    (hblank : current.get? blank = some BLANK_TILE)
    (hd : d = ((-1 : Int), (0 : Int)) ∨ d = (1, 0) ∨ d = (0, -1) ∨ d = (0, 1))
    (h : dirNeighbor current blank d = some n) :
    moveRel current n := by
  have hb9 : blank < 9 := by
    have := (List.get?_eq_some.mp hblank).1
    omega
  simp only [dirNeighbor] at h
  by_cases hbnd : 0 ≤ ((blank / GRID_SIZE : Nat) : Int) + d.1 ∧
      ((blank / GRID_SIZE : Nat) : Int) + d.1 < (GRID_SIZE : Int) ∧
      0 ≤ ((blank % GRID_SIZE : Nat) : Int) + d.2 ∧
      ((blank % GRID_SIZE : Nat) : Int) + d.2 < (GRID_SIZE : Int)
  case neg => rw [if_neg hbnd] at h; exact absurd h (by simp)
  rw [if_pos hbnd] at h
  cases hts : current.get? ((((blank / GRID_SIZE : Nat) : Int) + d.1) * (GRID_SIZE : Int) +
      (((blank % GRID_SIZE : Nat) : Int) + d.2)).toNat with
  | none => rw [hts] at h; simp at h
  | some ts =>
    cases htb : current.get? blank with
    | none => rw [hts, htb] at h; simp at h
    | some tb =>
      rw [hts, htb] at h
      simp only [Option.some.injEq] at h
      refine ⟨blank, ((((blank / GRID_SIZE : Nat) : Int) + d.1) * (GRID_SIZE : Int) +
        (((blank % GRID_SIZE : Nat) : Int) + d.2)).toNat, hblank, ?_, ?_⟩
      · simp only [GRID_SIZE] at hbnd ⊢
        unfold adjCell
        rcases hd with rfl | rfl | rfl | rfl <;>
          · simp only [] at hbnd ⊢
            omega
      · rw [← h]
        unfold swapL
        rw [getD_of_get? hts, getD_of_get? htb]

theorem moveRel_dirNeighbor {current n : Config} {blank : Nat}
    (hlen : current.length = 9) (hnd : current.Nodup)
    (hpi : pyIndex current BLANK_TILE = some blank)
    (hm : moveRel current n) :
    dirNeighbor current blank (-1, 0) = some n ∨
    dirNeighbor current blank (1, 0) = some n ∨
    dirNeighbor current blank (0, -1) = some n ∨
    dirNeighbor current blank (0, 1) = some n := by
  obtain ⟨b, s, hgb, hadj, rfl⟩ := hm
  have hb_eq : b = blank := pyIndex_unique hnd hgb hpi
  subst hb_eq
  have hgb2 : current.get? b = some BLANK_TILE := pyIndex_get hpi
  obtain ⟨hb9, hs9, hcase⟩ := hadj
  obtain ⟨ts, hts⟩ : ∃ ts, current.get? s = some ts := by
    cases hx : current.get? s with
    | none => rw [List.get?_eq_none] at hx; omega
    | some v => exact ⟨v, rfl⟩
  have key : ∀ d : Int × Int,
      (0 ≤ ((b / GRID_SIZE : Nat) : Int) + d.1 ∧
        ((b / GRID_SIZE : Nat) : Int) + d.1 < (GRID_SIZE : Int) ∧
        0 ≤ ((b % GRID_SIZE : Nat) : Int) + d.2 ∧
        ((b % GRID_SIZE : Nat) : Int) + d.2 < (GRID_SIZE : Int)) →
      ((((b / GRID_SIZE : Nat) : Int) + d.1) * (GRID_SIZE : Int) +
        (((b % GRID_SIZE : Nat) : Int) + d.2)).toNat = s →
      dirNeighbor current b d = some (swapL current b s) := by
    intro d hbnd hsw
    simp only [dirNeighbor]
    rw [if_pos hbnd, hsw, hts, hgb2]
    unfold swapL
    rw [getD_of_get? hts, getD_of_get? hgb2]
  rcases hcase with ⟨hrc, hc1 | hc1⟩ | ⟨hrc, hc1 | hc1⟩
  · refine Or.inr (Or.inr (Or.inr (key (0, 1) ?_ ?_))) <;>
      · simp only [GRID_SIZE]
        omega
  · refine Or.inr (Or.inr (Or.inl (key (0, -1) ?_ ?_))) <;>
      · simp only [GRID_SIZE]
        omega
  · refine Or.inr (Or.inl (key (1, 0) ?_ ?_)) <;>
      · simp only [GRID_SIZE]
        omega
  · refine Or.inl (key (-1, 0) ?_ ?_) <;>
      · simp only [GRID_SIZE]
        omega

/- ----------------------------------------------------------------------
   The keyed set and the termination measure under one relaxation.
   ---------------------------------------------------------------------- -/

theorem mem_permsF {initial c : Config} : c ∈ permsF initial ↔ c.Perm initial := by
  unfold permsF
  rw [List.mem_toFinset, List.mem_permutations]

theorem permsF_card_le (initial : Config) :
    (permsF initial).card ≤ Nat.factorial initial.length := by
  unfold permsF
  calc initial.permutations.toFinset.card ≤ initial.permutations.length :=
        List.toFinset_card_le _
    _ = Nat.factorial initial.length := List.length_permutations _

theorem mem_keysOf {initial c : Config} {s : AState} :
    c ∈ keysOf initial s ↔ c ∈ permsF initial ∧ (s.g_score c).isSome = true := by
  unfold keysOf
  simp [Finset.mem_filter]

theorem keysOf_fupd (initial : Config) (s : AState) (q : List (Nat × Config))
    (cf : Config → Option Config) (nb : Config) (v : Nat)
    (hnb : nb ∈ permsF initial) :
    keysOf initial { queue := q,
                     came_from := cf,
                     g_score := fupd s.g_score nb (some v) } =
      insert nb (keysOf initial s) := by
  ext c
  by_cases hc : c = nb
  · subst hc
    simp [mem_keysOf, hnb, fupd_self]
  · simp [mem_keysOf, fupd_ne _ _ hc, Finset.mem_insert, hc]

theorem keysOf_card_le (initial : Config) (s : AState) :
    (keysOf initial s).card ≤ Nat.factorial initial.length :=
  le_trans (Finset.card_le_card (Finset.filter_subset _ _)) (permsF_card_le initial)

theorem measureOf_push_update (initial : Config) (s : AState)
    (cf : Config → Option Config) (nb : Config) (v f : Nat)
    (hnb : nb ∈ permsF initial)
    (hlt : v < (s.g_score nb).getD (Nat.factorial initial.length)) :
    measureOf initial { queue := (f, nb) :: s.queue,
                        came_from := cf,
                        g_score := fupd s.g_score nb (some v) } ≤
      measureOf initial s := by
  unfold measureOf
  simp only [List.length_cons]
  have hsplit1 : ((fupd s.g_score nb (some v)) nb).getD (Nat.factorial initial.length) +
      (((permsF initial).erase nb).sum fun c =>
        ((fupd s.g_score nb (some v)) c).getD (Nat.factorial initial.length)) =
      (permsF initial).sum fun c =>
        ((fupd s.g_score nb (some v)) c).getD (Nat.factorial initial.length) :=
    Finset.add_sum_erase _
      (fun c => ((fupd s.g_score nb (some v)) c).getD (Nat.factorial initial.length)) hnb
  have hsplit2 : ((s.g_score nb).getD (Nat.factorial initial.length)) +
      (((permsF initial).erase nb).sum fun c =>
        (s.g_score c).getD (Nat.factorial initial.length)) =
      (permsF initial).sum fun c => (s.g_score c).getD (Nat.factorial initial.length) :=
    Finset.add_sum_erase _
      (fun c => (s.g_score c).getD (Nat.factorial initial.length)) hnb
  have hcong : (((permsF initial).erase nb).sum fun c =>
      ((fupd s.g_score nb (some v)) c).getD (Nat.factorial initial.length)) =
      (((permsF initial).erase nb).sum fun c =>
        (s.g_score c).getD (Nat.factorial initial.length)) :=
    Finset.sum_congr rfl fun c hc => by
      rw [fupd_ne _ _ (Finset.ne_of_mem_erase hc)]
  rw [fupd_self] at hsplit1
  simp only [Option.getD_some] at hsplit1
  omega

/- ----------------------------------------------------------------------
   One relaxation preserves the mid-iteration invariant.
   ---------------------------------------------------------------------- -/

theorem midInv_update {initial goal current : Config} {gc : Nat} {s : AState}
    {nb : Config} {hn : Nat}
    (hmid : MidInv initial goal current gc s)
    (hmove : moveRel current nb)
    (hnbperm : nb.Perm initial)
    (hold : ∀ gn, s.g_score nb = some gn → gc + 1 < gn)
    (hhn : hn = mval nb goal) :
    MidInv initial goal current gc
      { queue := (gc + 1 + hn, nb) :: s.queue,
        came_from := fupd s.came_from nb (some current),
        g_score := fupd s.g_score nb (some (gc + 1)) } := by
  have hnbF : nb ∈ permsF initial := mem_permsF.mpr hnbperm
  have hkeys : keysOf initial { queue := (gc + 1 + hn, nb) :: s.queue,
                                came_from := fupd s.came_from nb (some current),
                                g_score := fupd s.g_score nb (some (gc + 1)) } =
      insert nb (keysOf initial s) :=
    keysOf_fupd initial s _ _ nb (gc + 1) hnbF
  have hnb_ne_init : nb ≠ initial := by
    intro h
    have := hold 0 (h ▸ hmid.g_init)
    omega
  have hnb_ne_cur : nb ≠ current := by
    intro h
    have := hold gc (h ▸ hmid.g_cur)
    omega
  have hcard_le : ∀ c v, s.g_score c = some v →
      v < (insert nb (keysOf initial s)).card := by
    intro c v hv
    have h1 := hmid.g_bound c v hv
    have h2 := Finset.card_le_card (Finset.subset_insert nb (keysOf initial s))
    omega
  refine ⟨?_, ?_, ?_, ?_, ?_, ?_, ?_, ?_, ?_, ?_, ?_⟩
  · -- keys_perm
    dsimp only
    intro c hc
    by_cases h : c = nb
    · exact h ▸ hnbperm
    · rw [fupd_ne _ _ h] at hc
      exact hmid.keys_perm c hc
  · -- g_bound
    dsimp only
    intro c v hv
    rw [hkeys]
    by_cases h : c = nb
    · subst h
      rw [fupd_self] at hv
      cases hv
      cases hky : s.g_score c with
      | none =>
        have hnmem : c ∉ keysOf initial s := by
          rw [mem_keysOf]
          simp [hky]
        rw [Finset.card_insert_of_not_mem hnmem]
        have := hmid.g_bound current gc hmid.g_cur
        omega
      | some gn =>
        have := hold gn hky
        have := hmid.g_bound c gn hky
        have h2 := Finset.card_le_card (Finset.subset_insert c (keysOf initial s))
        omega
    · rw [fupd_ne _ _ h] at hv
      exact hcard_le c v hv
  · -- g_init
    dsimp only
    rw [fupd_ne _ _ (Ne.symm hnb_ne_init)]
    exact hmid.g_init
  · -- g_cur
    dsimp only
    rw [fupd_ne _ _ (Ne.symm hnb_ne_cur)]
    exact hmid.g_cur
  · -- cf_keys
    dsimp only
    intro c hc hne
    by_cases h : c = nb
    · subst h
      rw [fupd_self]
      rfl
    · rw [fupd_ne _ _ h] at hc ⊢
      exact hmid.cf_keys c hc hne
  · -- cf_link
    dsimp only
    intro m p hcf
    by_cases h : m = nb
    · subst h
      rw [fupd_self] at hcf
      cases hcf
      refine ⟨gc + 1, gc, fupd_self _ _ _, ?_, by omega, hmove⟩
      rw [fupd_ne _ _ (Ne.symm hnb_ne_cur)]
      exact hmid.g_cur
    · rw [fupd_ne _ _ h] at hcf
      obtain ⟨gn, gp, hgn, hgp, hlt, hmv⟩ := hmid.cf_link m p hcf
      refine ⟨gn, ?_⟩
      rw [fupd_ne _ _ h]
      by_cases hp : p = nb
      · subst hp
        have := hold gp hgp
        exact ⟨gc + 1, hgn, fupd_self _ _ _, by omega, hmv⟩
      · rw [fupd_ne _ _ hp]
        exact ⟨gp, hgn, hgp, hlt, hmv⟩
  · -- queue_keyed
    dsimp only
    intro e he
    rcases List.mem_cons.mp he with rfl | he2
    · simp [fupd_self]
    · by_cases h : e.2 = nb
      · rw [h, fupd_self]
        rfl
      · rw [fupd_ne _ _ h]
        exact hmid.queue_keyed e he2
  · -- queue_pri
    dsimp only
    intro e he hne
    rcases List.mem_cons.mp he with rfl | he2
    · refine ⟨gc + 1, fupd_self _ _ _, ?_⟩
      dsimp only
      omega
    · obtain ⟨v, hv, hpri⟩ := hmid.queue_pri e he2 hne
      by_cases h : e.2 = nb
      · have hd : mval e.2 goal = mval nb goal := by rw [h]
        rw [h] at hv
        have := hold v hv
        rw [h]
        exact ⟨gc + 1, fupd_self _ _ _, by omega⟩
      · rw [fupd_ne _ _ h]
        exact ⟨v, hv, hpri⟩
  · -- relaxedX
    dsimp only
    intro c v hv hne
    by_cases h : c = nb
    · subst h
      rw [fupd_self] at hv
      cases hv
      left
      exact ⟨gc + 1 + hn, by rw [hhn], List.mem_cons_self _ _⟩
    · rw [fupd_ne _ _ h] at hv
      rcases hmid.relaxedX c v hv hne with ⟨f, hf, hmem⟩ | hrt
      · exact Or.inl ⟨f, hf, List.mem_cons_of_mem _ hmem⟩
      · right
        intro m hmv
        obtain ⟨gn, hgn, hle⟩ := hrt m hmv
        by_cases hm : m = nb
        · subst hm
          have := hold gn hgn
          exact ⟨gc + 1, fupd_self _ _ _, by omega⟩
        · rw [fupd_ne _ _ hm]
          exact ⟨gn, hgn, hle⟩
  · -- lower
    dsimp only
    intro c v hv
    by_cases h : c = nb
    · subst h
      rw [fupd_self] at hv
      cases hv
      obtain ⟨k, hk, hsteps⟩ := hmid.lower current gc hmid.g_cur
      exact ⟨k + 1, by omega, Steps.tail hsteps hmove⟩
    · rw [fupd_ne _ _ h] at hv
      exact hmid.lower c v hv
  · -- goal_queued
    dsimp only
    intro hgne hky
    by_cases h : goal = nb
    · exact ⟨gc + 1 + hn, by rw [h]; exact List.mem_cons_self _ _⟩
    · rw [fupd_ne _ _ h] at hky
      obtain ⟨f, hf⟩ := hmid.goal_queued hgne hky
      exact ⟨f, List.mem_cons_of_mem _ hf⟩

/- ----------------------------------------------------------------------
   Symbolic execution of one direction of the expansion loop.
   ---------------------------------------------------------------------- -/

theorem stepDir_cases {goal current : Config} {blank gc : Nat} {d : Int × Int}
    {s : AState}
    (hlen : current.length = 9)
    (hg2 : current.get? blank = some BLANK_TILE)
    (hgc : s.g_score current = some gc) :
    (stepDir goal current blank d s = .ok s ∧ dirNeighbor current blank d = none) ∨
    (∃ nb gn, dirNeighbor current blank d = some nb ∧ s.g_score nb = some gn ∧
      gn ≤ gc + 1 ∧ stepDir goal current blank d s = .ok s) ∨
    (∃ nb, dirNeighbor current blank d = some nb ∧
      (∀ gn, s.g_score nb = some gn → gc + 1 < gn) ∧
      stepDir goal current blank d s =
        (match manhattan_distance nb goal with
         | .error e => .error e
         | .ok hn => .ok
            { queue := (gc + 1 + hn, nb) :: s.queue,
              came_from := fupd s.came_from nb (some current),
              g_score := fupd s.g_score nb (some (gc + 1)) })) := by
  by_cases hbnd : 0 ≤ ((blank / GRID_SIZE : Nat) : Int) + d.1 ∧
      ((blank / GRID_SIZE : Nat) : Int) + d.1 < (GRID_SIZE : Int) ∧
      0 ≤ ((blank % GRID_SIZE : Nat) : Int) + d.2 ∧
      ((blank % GRID_SIZE : Nat) : Int) + d.2 < (GRID_SIZE : Int)
  case neg =>
    left
    constructor
    · simp only [stepDir]
      rw [if_neg hbnd]
    · simp only [dirNeighbor]
      rw [if_neg hbnd]
  case pos =>
    have hsw9 : ((((blank / GRID_SIZE : Nat) : Int) + d.1) * (GRID_SIZE : Int) +
        (((blank % GRID_SIZE : Nat) : Int) + d.2)).toNat < 9 := by
      simp only [GRID_SIZE] at hbnd ⊢
      omega
    obtain ⟨ts, hts⟩ : ∃ ts, current.get? ((((blank / GRID_SIZE : Nat) : Int) + d.1) *
        (GRID_SIZE : Int) + (((blank % GRID_SIZE : Nat) : Int) + d.2)).toNat = some ts := by
      cases hx : current.get? ((((blank / GRID_SIZE : Nat) : Int) + d.1) *
          (GRID_SIZE : Int) + (((blank % GRID_SIZE : Nat) : Int) + d.2)).toNat with
      | none => rw [List.get?_eq_none] at hx; omega
      | some v => exact ⟨v, rfl⟩
    have hdnb : dirNeighbor current blank d =
        some ((current.set blank ts).set ((((blank / GRID_SIZE : Nat) : Int) + d.1) *
          (GRID_SIZE : Int) + (((blank % GRID_SIZE : Nat) : Int) + d.2)).toNat BLANK_TILE) := by
      simp only [dirNeighbor]
      rw [if_pos hbnd, hts, hg2]
    have hstep : stepDir goal current blank d s =
        (if (match s.g_score ((current.set blank ts).set ((((blank / GRID_SIZE : Nat) : Int) + d.1) *
          (GRID_SIZE : Int) + (((blank % GRID_SIZE : Nat) : Int) + d.2)).toNat BLANK_TILE) with
             | none => true
             | some gn => decide (gc + 1 < gn)) = true then
          (match manhattan_distance ((current.set blank ts).set ((((blank / GRID_SIZE : Nat) : Int) + d.1) *
          (GRID_SIZE : Int) + (((blank % GRID_SIZE : Nat) : Int) + d.2)).toNat BLANK_TILE) goal with
           | .error e => .error e
           | .ok hn => .ok
              { queue := (gc + 1 + hn, ((current.set blank ts).set ((((blank / GRID_SIZE : Nat) : Int) + d.1) *
          (GRID_SIZE : Int) + (((blank % GRID_SIZE : Nat) : Int) + d.2)).toNat BLANK_TILE)) :: s.queue,
                came_from := fupd s.came_from ((current.set blank ts).set ((((blank / GRID_SIZE : Nat) : Int) + d.1) *
          (GRID_SIZE : Int) + (((blank % GRID_SIZE : Nat) : Int) + d.2)).toNat BLANK_TILE) (some current),
                g_score := fupd s.g_score ((current.set blank ts).set ((((blank / GRID_SIZE : Nat) : Int) + d.1) *
          (GRID_SIZE : Int) + (((blank % GRID_SIZE : Nat) : Int) + d.2)).toNat BLANK_TILE) (some (gc + 1)) })
         else .ok s) := by
      simp only [stepDir, listGet]
      rw [if_pos hbnd, hts, hg2, hgc]
    cases hky : s.g_score ((current.set blank ts).set ((((blank / GRID_SIZE : Nat) : Int) + d.1) *
        (GRID_SIZE : Int) + (((blank % GRID_SIZE : Nat) : Int) + d.2)).toNat BLANK_TILE) with
    | none =>
      right; right
      refine ⟨_, hdnb, ?_, ?_⟩
      · intro gn hgn
        rw [hky] at hgn
        cases hgn
      · rw [hstep, hky]
        rw [if_pos (by simp)]
    | some gn =>
      by_cases hlt : gc + 1 < gn
      · right; right
        refine ⟨_, hdnb, ?_, ?_⟩
        · intro gn' hgn'
          rw [hky] at hgn'
          cases hgn'
          exact hlt
        · rw [hstep, hky]
          rw [if_pos (by simp [hlt])]
      · right; left
        refine ⟨_, gn, hdnb, hky, by omega, ?_⟩
        rw [hstep, hky]
        rw [if_neg (by simp [hlt])]

theorem stepDir_mid {initial goal current : Config} {gc blank : Nat} {d : Int × Int}
    {s : AState}
    (hvi : ValidConfig initial) (hvg : ValidConfig goal)
    (hperm : current.Perm initial)
    (hpi : pyIndex current BLANK_TILE = some blank)
    (hd : d = ((-1 : Int), (0 : Int)) ∨ d = (1, 0) ∨ d = (0, -1) ∨ d = (0, 1))
    (hmid : MidInv initial goal current gc s) :
    ∃ s', stepDir goal current blank d s = .ok s' ∧
      MidInv initial goal current gc s' ∧
      (∀ c v, s.g_score c = some v → ∃ v', v' ≤ v ∧ s'.g_score c = some v') ∧
      (∀ e ∈ s.queue, e ∈ s'.queue) ∧
      measureOf initial s' ≤ measureOf initial s ∧
      (∀ n, dirNeighbor current blank d = some n →
        ∃ gn, s'.g_score n = some gn ∧ gn ≤ gc + 1) := by
  have hlen : current.length = 9 := (List.Perm.length_eq hperm).trans hvi.len
  have hg2 : current.get? blank = some BLANK_TILE := pyIndex_get hpi
  rcases stepDir_cases hlen hg2 hmid.g_cur with
    ⟨hst, hnone⟩ | ⟨nb, gn, hdnb, hky, hle, hst⟩ | ⟨nb, hdnb, hold, hst⟩
  · refine ⟨s, hst, hmid, fun c v h => ⟨v, le_refl _, h⟩, fun e he => he, le_refl _, ?_⟩
    intro n hn
    rw [hnone] at hn
    cases hn
  · refine ⟨s, hst, hmid, fun c v h => ⟨v, le_refl _, h⟩, fun e he => he, le_refl _, ?_⟩
    intro n hn
    rw [hdnb] at hn
    cases hn
    exact ⟨gn, hky, hle⟩
  · have hmove : moveRel current nb := dirNeighbor_moveRel hlen hg2 hd hdnb
    have hnbperm : nb.Perm initial := (moveRel_perm hlen hmove).trans hperm
    have hnbvalid : ValidConfig nb := hnbperm.trans hvi
    have hmd : manhattan_distance nb goal = .ok (mval nb goal) :=
      manhattan_ok (fun t ht _ => ((hnbvalid.perm hvg).mem_iff).mp ht)
    rw [hmd] at hst
    refine ⟨_, hst, ?_, ?_, ?_, ?_, ?_⟩
    · exact midInv_update hmid hmove hnbperm hold rfl
    · intro c v h
      dsimp only
      by_cases hc : c = nb
      · subst hc
        have := hold v h
        exact ⟨gc + 1, by omega, fupd_self _ _ _⟩
      · exact ⟨v, le_refl _, by rw [fupd_ne _ _ hc]; exact h⟩
    · intro e he
      dsimp only
      exact List.mem_cons_of_mem _ he
    · apply measureOf_push_update initial s _ nb (gc + 1) _ (mem_permsF.mpr hnbperm)
      cases hky : s.g_score nb with
      | none =>
        simp only [hky, Option.getD_none]
        have h1 := hmid.g_bound current gc hmid.g_cur
        have h2 : (keysOf initial s) ⊂ permsF initial := by
          refine (Finset.ssubset_iff_of_subset (Finset.filter_subset _ _)).mpr ?_
          exact ⟨nb, mem_permsF.mpr hnbperm, by simp [mem_keysOf, hky]⟩
        have h3 := Finset.card_lt_card h2
        have h4 := permsF_card_le initial
        omega
      | some gn =>
        simp only [hky, Option.getD_some]
        exact hold gn hky
    · intro n hn
      rw [hdnb] at hn
      cases hn
      dsimp only
      exact ⟨gc + 1, fupd_self _ _ _, le_refl _⟩

/- ----------------------------------------------------------------------
   Entering and leaving one loop iteration.
   ---------------------------------------------------------------------- -/

theorem pop_to_mid {initial goal : Config} {s : AState} {f : Nat} {current : Config}
    {rest : List (Nat × Config)}
    (hinv : AInv initial goal s)
    (hpop : popMin s.queue = some ((f, current), rest))
    (hne : current ≠ goal) :
    ∃ gc, s.g_score current = some gc ∧ current.Perm initial ∧
      MidInv initial goal current gc { s with queue := rest } := by
  have hperm := popMin_perm hpop
  have hmem : (f, current) ∈ s.queue := hperm.mem_iff.mpr (List.mem_cons_self _ _)
  have hkeyed := hinv.queue_keyed _ hmem
  obtain ⟨gc, hgc⟩ := Option.isSome_iff_exists.mp hkeyed
  have hmem_rest : ∀ e ∈ rest, e ∈ s.queue := fun e he =>
    hperm.mem_iff.mpr (List.mem_cons_of_mem _ he)
  have hrest_of : ∀ e : Nat × Config, e ∈ s.queue → e.2 ≠ current → e ∈ rest := by
    intro e he hne2
    rcases List.mem_cons.mp (hperm.mem_iff.mp he) with rfl | h2
    · exact absurd rfl hne2
    · exact h2
  refine ⟨gc, hgc, hinv.keys_perm _ hkeyed, ?_⟩
  refine ⟨hinv.keys_perm, hinv.g_bound, hinv.g_init, hgc, hinv.cf_keys, hinv.cf_link,
    ?_, ?_, ?_, hinv.lower, ?_⟩
  · exact fun e he => hinv.queue_keyed e (hmem_rest e he)
  · exact fun e he hne2 => hinv.queue_pri e (hmem_rest e he) hne2
  · intro c v hv hne2
    rcases hinv.relaxed c v hv with ⟨f', hf', hmem'⟩ | hrt
    · exact Or.inl ⟨f', hf', hrest_of _ hmem' hne2⟩
    · exact Or.inr hrt
  · intro hgne hky
    obtain ⟨f', hf'⟩ := hinv.goal_queued hgne hky
    exact ⟨f', hrest_of _ hf' hne.symm⟩

theorem mid_to_inv {initial goal current : Config} {gc : Nat} {s : AState}
    (hmid : MidInv initial goal current gc s)
    (hcur : ∀ n, moveRel current n → ∃ gn, s.g_score n = some gn ∧ gn ≤ gc + 1) :
    AInv initial goal s := by
  refine ⟨hmid.keys_perm, hmid.g_bound, hmid.g_init, hmid.cf_keys, hmid.cf_link,
    hmid.queue_keyed, hmid.queue_pri, ?_, hmid.lower, hmid.goal_queued⟩
  intro c v hv
  by_cases hc : c = current
  · subst hc
    right
    have : v = gc := by
      rw [hmid.g_cur] at hv
      cases hv
      rfl
    rw [this]
    exact hcur
  · exact hmid.relaxedX c v hv hc

/- ----------------------------------------------------------------------
   Paths, chains, and reconstruction.
   ---------------------------------------------------------------------- -/

theorem steps_cons {a x b : Config} {n : Nat} (hmv : moveRel a x) (h : Steps x b n) :
    Steps a b (n + 1) := by
  induction h with
  | refl => exact Steps.tail (Steps.refl _) hmv
  | tail hs mv ih => exact Steps.tail ih mv

theorem chain_snoc {a : Config} : ∀ {l : List Config} {b c : Config},
    List.Chain moveRel a l → l.getLast? = some b → moveRel b c →
    List.Chain moveRel a (l ++ [c]) := by
  intro l
  induction l generalizing a with
  | nil => intro b c _ hlast; cases hlast
  | cons x xs ih =>
    intro b c hch hlast hmv
    rcases List.chain_cons.mp hch with ⟨hax, hxs⟩
    cases xs with
    | nil =>
      cases hlast
      exact List.Chain.cons hax (List.Chain.cons hmv List.Chain.nil)
    | cons y ys =>
      have hlast2 : (y :: ys).getLast? = some b := by
        rw [List.getLast?_cons_cons] at hlast
        exact hlast
      exact List.Chain.cons hax (ih hxs hlast2 hmv)

theorem chain_to_steps {a b : Config} : ∀ {l : List Config},
    List.Chain moveRel a l → l.getLast? = some b → Steps a b l.length := by
  intro l
  induction l generalizing a with
  | nil => intro _ hlast; cases hlast
  | cons x xs ih =>
    intro hch hlast
    rcases List.chain_cons.mp hch with ⟨hax, hxs⟩
    cases xs with
    | nil =>
      cases hlast
      exact Steps.tail (Steps.refl _) hax
    | cons y ys =>
      have hlast2 : (y :: ys).getLast? = some b := by
        rw [List.getLast?_cons_cons] at hlast
        exact hlast
      exact steps_cons hax (ih hxs hlast2)

theorem steps_to_path {a b : Config} {k : Nat} (h : Steps a b k) :
    ∃ p : Nat → Config, p 0 = a ∧ p k = b ∧ ∀ i < k, moveRel (p i) (p (i + 1)) := by
  induction h with
  | refl => exact ⟨fun _ => a, rfl, rfl, fun i hi => absurd hi (Nat.not_lt_zero i)⟩
  | tail hs mv ih =>
    obtain ⟨p, hp0, hpn, hstep⟩ := ih
    rename_i b' c' n
    refine ⟨fun i => if i = n + 1 then c' else p i, by simp [hp0], by simp, ?_⟩
    intro i hi
    by_cases hin : i = n
    · subst hin
      have e1 : ¬(i = i + 1) := by omega
      simp only [if_neg e1, if_pos rfl]
      rw [hpn]
      exact mv
    · have h1 : ¬i = n + 1 := by omega
      have h2 : ¬i + 1 = n + 1 := by omega
      simp only [if_neg h1, if_neg h2]
      exact hstep i (by omega)

theorem reconstruct_spec {initial goal : Config} {s : AState}
    (hinv : AInv initial goal s) :
    ∀ gc c acc, s.g_score c = some gc → ∀ fuel, gc < fuel →
      ∃ pref, reconstruct s.came_from fuel c acc = .ok (pref ++ acc) ∧
        pref.length ≤ gc ∧ initial ∉ pref ∧
        ((c = initial ∧ pref = []) ∨
         (List.Chain moveRel initial pref ∧ pref ≠ [] ∧ pref.getLast? = some c)) := by
  intro gc
  induction gc using Nat.strong_induction_on with
  | _ gc ihg =>
    intro c acc hgc fuel hfuel
    obtain ⟨m, rfl⟩ : ∃ m, fuel = m + 1 := ⟨fuel - 1, by omega⟩
    cases hcf : s.came_from c with
    | none =>
      refine ⟨[], by simp [reconstruct, hcf], by simp, by simp, Or.inl ⟨?_, rfl⟩⟩
      by_contra hne
      have h2 := hinv.cf_keys c (by simp [hgc]) hne
      rw [hcf] at h2
      simp at h2
    | some p =>
      obtain ⟨gn, gp, hgn, hgp, hlt, hmv⟩ := hinv.cf_link c p hcf
      have hgceq : gn = gc := by
        rw [hgc] at hgn
        cases hgn
        rfl
      subst hgceq
      obtain ⟨pref', hrec', hlen', hni', hcase'⟩ :=
        ihg gp hlt p (c :: acc) hgp m (by omega)
      have hred : reconstruct s.came_from (m + 1) c acc =
          reconstruct s.came_from m p (c :: acc) := by
        simp [reconstruct, hcf]
      refine ⟨pref' ++ [c], ?_, ?_, ?_, ?_⟩
      · rw [hred, hrec']
        simp
      · simp only [List.length_append, List.length_cons, List.length_nil]
        omega
      · intro hmem
        rcases List.mem_append.mp hmem with h1 | h1
        · exact hni' h1
        · have h2 : initial = c := by simpa using h1
          rw [← h2, hinv.g_init] at hgc
          cases hgc
          omega
      · right
        rcases hcase' with ⟨rfl, rfl⟩ | ⟨hch, hne', hlast⟩
        · exact ⟨List.Chain.cons hmv List.Chain.nil, by simp, by simp⟩
        · exact ⟨chain_snoc hch hlast hmv, by simp, by simp⟩

/- ----------------------------------------------------------------------
   Consistency of the heuristic along legal moves.
   ---------------------------------------------------------------------- -/

theorem getD_set_ne : ∀ (l : List Int) (i j : Nat) (a : Int), i ≠ j →
    (l.set i a).getD j 0 = l.getD j 0 := by
  intro l
  induction l with
  | nil => intro i j a _; simp
  | cons x xs ih =>
    intro i j a h
    cases i with
    | zero =>
      cases j with
      | zero => exact absurd rfl h
      | succ jj => simp [List.set]
    | succ ii =>
      cases j with
      | zero => simp [List.set]
      | succ jj =>
        simp only [List.set, List.getD_cons_succ]
        exact ih ii jj a (by omega)

theorem mvalGo_set {goal : Config} : ∀ (l : List Int) (k i : Nat) (a : Int),
    i < l.length →
    mvalGo goal (enumFrom k (l.set i a)) +
      (if l.getD i 0 = BLANK_TILE then 0
       else cdist ((pyIndex goal (l.getD i 0)).getD 0) (k + i)) =
    mvalGo goal (enumFrom k l) +
      (if a = BLANK_TILE then 0 else cdist ((pyIndex goal a).getD 0) (k + i)) := by
  intro l
  induction l with
  | nil => intro k i a h; simp at h
  | cons x xs ih =>
    intro k i a h
    cases i with
    | zero =>
      simp only [List.set, enumFrom, mvalGo, Nat.add_zero, List.getD_cons_zero]
      omega
    | succ j =>
      simp only [List.set, enumFrom, mvalGo, List.getD_cons_succ]
      have hrec := ih (k + 1) j a (by simpa using Nat.lt_of_succ_lt_succ h)
      have harith : k + 1 + j = k + (j + 1) := by omega
      rw [harith] at hrec
      omega

theorem cdist_adj {j b s : Nat} (hadj : adjCell b s) :
    cdist j b ≤ cdist j s + 1 ∧ cdist j s ≤ cdist j b + 1 := by
  obtain ⟨hb9, hs9, hcase⟩ := hadj
  unfold cdist
  simp only [GRID_SIZE]
  rcases hcase with ⟨h1, h2 | h2⟩ | ⟨h1, h2 | h2⟩ <;> omega

theorem adjCell_ne {b s : Nat} (hadj : adjCell b s) : b ≠ s := by
  obtain ⟨hb9, hs9, hcase⟩ := hadj
  rcases hcase with ⟨h1, h2 | h2⟩ | ⟨h1, h2 | h2⟩ <;> omega

theorem mval_move {goal c c' : Config} (hlen : c.length = 9) (hm : moveRel c c') :
    mval c' goal ≤ mval c goal + 1 ∧ mval c goal ≤ mval c' goal + 1 := by
  obtain ⟨b, s, hgb, hadj, rfl⟩ := hm
  have hbs : b ≠ s := adjCell_ne hadj
  obtain ⟨hb9, hs9, hcase⟩ := hadj
  have hgdb : c.getD b 0 = BLANK_TILE := getD_of_get? hgb
  have h1 := @mvalGo_set goal (c.set b (c.getD s 0)) 0 s (c.getD b 0)
    (by rw [List.length_set]; omega)
  have h2 := @mvalGo_set goal c 0 b (c.getD s 0) (by omega)
  have hgds : (c.set b (c.getD s 0)).getD s 0 = c.getD s 0 := getD_set_ne _ _ _ _ hbs
  rw [hgds, hgdb] at h1
  rw [hgdb] at h2
  unfold swapL mval
  rw [hgdb]
  by_cases hts : c.getD s 0 = BLANK_TILE
  · rw [hts] at h1 h2 ⊢
    simp only [eq_self_iff_true, if_true, Nat.zero_add] at h1 h2
    omega
  · simp only [eq_self_iff_true, if_true, if_neg hts, Nat.zero_add] at h1 h2
    have hcd := cdist_adj (j := (pyIndex goal (c.getD s 0)).getD 0)
      (⟨hb9, hs9, hcase⟩ : adjCell b s)
    omega

theorem specManhattan_self (goal : Config) : specManhattan goal goal = 0 := by
  unfold specManhattan
  apply List.sum_eq_zero
  intro x hx
  simp only [List.mem_map] at hx
  obtain ⟨t, _, rfl⟩ := hx
  exact cdist_self _

theorem mval_goal_self {goal : Config} (hg : ValidConfig goal) : mval goal goal = 0 := by
  have h1 : manhattan_distance goal goal = .ok (mval goal goal) :=
    manhattan_ok (fun t ht _ => ht)
  have h2 := manhattan_eq_spec hg hg
  rw [h1] at h2
  have h3 := Except.ok.inj h2
  rw [h3, specManhattan_self]

theorem path_valid {initial : Config} (hvi : ValidConfig initial) (p : Nat → Config)
    (k : Nat) (hp0 : p 0 = initial) (hstep : ∀ i < k, moveRel (p i) (p (i + 1))) :
    ∀ i, i ≤ k → ValidConfig (p i) := by
  intro i
  induction i with
  | zero => intro _; rw [hp0]; exact hvi
  | succ j ihj =>
    intro hle
    exact (ihj (by omega)).of_moveRel (hstep j (by omega))

theorem path_h_bound {initial goal : Config} (hvi : ValidConfig initial)
    (hvg : ValidConfig goal) (p : Nat → Config) (k : Nat)
    (hp0 : p 0 = initial) (hpk : p k = goal)
    (hstep : ∀ i < k, moveRel (p i) (p (i + 1))) :
    ∀ i, i ≤ k → mval (p i) goal ≤ k - i := by
  have hval := path_valid hvi p k hp0 hstep
  intro i hi
  generalize hd : k - i = j
  induction j generalizing i with
  | zero =>
    have heq : i = k := by omega
    subst heq
    rw [hpk, mval_goal_self hvg]
  | succ m ihm =>
    have hik : i < k := by omega
    have hlen : (p i).length = 9 := (hval i (by omega)).len
    have hb := (@mval_move goal _ _ hlen (hstep i hik)).2
    have hrec := ihm (i + 1) (by omega) (by omega)
    omega

theorem cover {initial goal : Config} {s : AState}
    (hinv : AInv initial goal s) (hvi : ValidConfig initial) (hvg : ValidConfig goal)
    (p : Nat → Config) (k : Nat) (hp0 : p 0 = initial) (hpk : p k = goal)
    (hstep : ∀ i < k, moveRel (p i) (p (i + 1))) :
    (∃ f c, (f, c) ∈ s.queue ∧ f ≤ k) ∨
    (∃ gg, s.g_score goal = some gg ∧ gg ≤ k) := by
  have hhb := path_h_bound hvi hvg p k hp0 hpk hstep
  suffices h : ∀ j i, i ≤ k → k - i ≤ j → ∀ gi, gi ≤ i → s.g_score (p i) = some gi →
      (∃ f c, (f, c) ∈ s.queue ∧ f ≤ k) ∨
      (∃ gg, s.g_score goal = some gg ∧ gg ≤ k) by
    exact h k 0 (by omega) (by omega) 0 (by omega) (by rw [hp0]; exact hinv.g_init)
  intro j
  induction j with
  | zero =>
    intro i hik hj gi hgi hkey
    have heq : i = k := by omega
    subst heq
    right
    rw [hpk] at hkey
    exact ⟨gi, hkey, by omega⟩
  | succ m ihm =>
    intro i hik hj gi hgi hkey
    by_cases hieq : i = k
    · subst hieq
      right
      rw [hpk] at hkey
      exact ⟨gi, hkey, by omega⟩
    · have hik2 : i < k := by omega
      rcases hinv.relaxed _ gi hkey with ⟨f, hf, hmem⟩ | hrt
      · left
        refine ⟨f, p i, hmem, ?_⟩
        have := hhb i (by omega)
        omega
      · obtain ⟨gn, hgn, hle⟩ := hrt _ (hstep i hik2)
        exact ihm (i + 1) (by omega) (by omega) gn (by omega) hgn

/- ----------------------------------------------------------------------
   The main loop theorem: the modelled search always succeeds, returns the
   empty sequence exactly when the goal is unreachable, and otherwise
   returns a legal move chain of minimal length from start to goal.
   ---------------------------------------------------------------------- -/

theorem aLoop_run {initial goal : Config}
    (hvi : ValidConfig initial) (hvg : ValidConfig goal) (hne : initial ≠ goal) :
    ∀ fuel s, AInv initial goal s → measureOf initial s < fuel →
      ∃ result, aLoop goal (Nat.factorial initial.length) fuel s = .ok result ∧
        ((result = [] ∧ ∀ k, ¬ Steps initial goal k) ∨
         (List.Chain moveRel initial result ∧ result ≠ [] ∧
          result.getLast? = some goal ∧ initial ∉ result ∧
          (∀ k, Steps initial goal k → result.length ≤ k))) := by
  intro fuel
  induction fuel with
  | zero =>
    intro s _ hmu
    omega
  | succ m ih =>
    intro s hinv hmu
    cases hpop : popMin s.queue with
    | none =>
      refine ⟨[], by simp [aLoop, hpop], Or.inl ⟨rfl, ?_⟩⟩
      intro k hk
      have hclosed : ∀ c n, Steps initial c n → (s.g_score c).isSome = true := by
        intro c n hst
        induction hst with
        | refl => simp [hinv.g_init]
        | tail hs mv ihs =>
          obtain ⟨v, hv⟩ := Option.isSome_iff_exists.mp ihs
          rcases hinv.relaxed _ v hv with ⟨f, _, hmem⟩ | hrt
          · rw [popMin_none hpop] at hmem
            cases hmem
          · obtain ⟨gn, hgn, _⟩ := hrt _ mv
            simp [hgn]
      obtain ⟨f, hf⟩ := hinv.goal_queued (Ne.symm hne) (hclosed goal k hk)
      rw [popMin_none hpop] at hf
      cases hf
    | some pr =>
      obtain ⟨⟨f0, current⟩, rest⟩ := pr
      by_cases hcg : current = goal
      · subst hcg
        have hmem : (f0, current) ∈ s.queue :=
          (popMin_perm hpop).mem_iff.mpr (List.mem_cons_self _ _)
        obtain ⟨gg, hgg⟩ := Option.isSome_iff_exists.mp (hinv.queue_keyed _ hmem)
        have hggB : gg < Nat.factorial initial.length :=
          lt_of_lt_of_le (hinv.g_bound _ _ hgg) (keysOf_card_le _ _)
        obtain ⟨pref, hrec, hlenp, hni, hcase⟩ :=
          reconstruct_spec hinv gg current [] hgg (Nat.factorial initial.length) hggB
        have hloop : aLoop current (Nat.factorial initial.length) (m + 1) s =
            reconstruct s.came_from (Nat.factorial initial.length) current [] := by
          simp only [aLoop, hpop]
          rw [if_pos trivial]
        rcases hcase with ⟨hgi, rfl⟩ | ⟨hch, hnem, hlast⟩
        · exact absurd hgi.symm hne
        · refine ⟨pref, ?_, Or.inr ⟨hch, hnem, hlast, hni, ?_⟩⟩
          · rw [hloop, hrec]
            simp
          · intro k hk
            obtain ⟨p, hp0, hpk, hstep⟩ := steps_to_path hk
            have hggk : gg ≤ k := by
              rcases cover hinv hvi hvg p k hp0 hpk hstep with
                ⟨f', c', hmem', hfle⟩ | ⟨gg', hgg', hle⟩
              · have hmin := popMin_min hpop _ hmem'
                obtain ⟨v, hv, hpri⟩ := hinv.queue_pri _ hmem (Ne.symm hne)
                rw [hgg] at hv
                cases hv
                rw [mval_goal_self hvg] at hpri
                simp only [] at hmin hpri
                omega
              · rw [hgg] at hgg'
                cases hgg'
                omega
            omega
      · obtain ⟨gc, hgc, hcperm, hmid0⟩ := pop_to_mid hinv hpop hcg
        have hcv : ValidConfig current := hcperm.trans hvi
        obtain ⟨blank, hpi⟩ : ∃ blank, pyIndex current BLANK_TILE = some blank :=
          Option.isSome_iff_exists.mp (pyIndex_isSome_iff.mpr hcv.blank_mem)
        obtain ⟨s1, hst1, hmid1, hmon1, hq1, hmu1, hrel1⟩ :=
          stepDir_mid hvi hvg hcperm hpi (Or.inl rfl) hmid0
        obtain ⟨s2, hst2, hmid2, hmon2, hq2, hmu2, hrel2⟩ :=
          stepDir_mid hvi hvg hcperm hpi (Or.inr (Or.inl rfl)) hmid1
        obtain ⟨s3, hst3, hmid3, hmon3, hq3, hmu3, hrel3⟩ :=
          stepDir_mid hvi hvg hcperm hpi (Or.inr (Or.inr (Or.inl rfl))) hmid2
        obtain ⟨s4, hst4, hmid4, hmon4, hq4, hmu4, hrel4⟩ :=
          stepDir_mid hvi hvg hcperm hpi (Or.inr (Or.inr (Or.inr rfl))) hmid3
        have hcov : ∀ n, moveRel current n →
            ∃ gn, s4.g_score n = some gn ∧ gn ≤ gc + 1 := by
          intro n hmv
          rcases moveRel_dirNeighbor hcv.len hcv.nodup hpi hmv with h | h | h | h
          · obtain ⟨gn, hgn, hle⟩ := hrel1 n h
            obtain ⟨v2, hv2le, hv2⟩ := hmon2 n gn hgn
            obtain ⟨v3, hv3le, hv3⟩ := hmon3 n v2 hv2
            obtain ⟨v4, hv4le, hv4⟩ := hmon4 n v3 hv3
            exact ⟨v4, hv4, by omega⟩
          · obtain ⟨gn, hgn, hle⟩ := hrel2 n h
            obtain ⟨v3, hv3le, hv3⟩ := hmon3 n gn hgn
            obtain ⟨v4, hv4le, hv4⟩ := hmon4 n v3 hv3
            exact ⟨v4, hv4, by omega⟩
          · obtain ⟨gn, hgn, hle⟩ := hrel3 n h
            obtain ⟨v4, hv4le, hv4⟩ := hmon4 n gn hgn
            exact ⟨v4, hv4, by omega⟩
          · exact hrel4 n h
        have hinv4 : AInv initial goal s4 := mid_to_inv hmid4 hcov
        have hqlen : s.queue.length = rest.length + 1 := by
          have := (popMin_perm hpop).length_eq
          simpa using this
        have hm0 : measureOf initial { s with queue := rest } + 1 =
            measureOf initial s := by
          unfold measureOf
          dsimp only
          omega
        have hm4 : measureOf initial s4 < m := by omega
        have hloop : aLoop goal (Nat.factorial initial.length) (m + 1) s =
            aLoop goal (Nat.factorial initial.length) m s4 := by
          simp only [aLoop, hpop]
          rw [if_neg hcg]
          simp only [hpi, hst1, hst2, hst3, hst4]
        obtain ⟨result, hres, hprop⟩ := ih s4 hinv4 hm4
        exact ⟨result, by rw [hloop]; exact hres, hprop⟩

/-- The run invariant holds at the state a_star_solver builds before its
    loop: the queue holds (0, initial) and only initial has a g-score. -/
theorem aInv_init {initial goal : Config} :
    AInv initial goal
      { queue := [(0, initial)],
        came_from := fun _ => none,
        g_score := fupd (fun _ => none) initial (some 0) } := by
  refine ⟨?_, ?_, ?_, ?_, ?_, ?_, ?_, ?_, ?_, ?_⟩
  · -- keys_perm
    dsimp only
    intro c hc
    by_cases h : c = initial
    · exact h ▸ List.Perm.refl _
    · rw [fupd_ne _ _ h] at hc
      simp at hc
  · -- g_bound
    dsimp only
    intro c n hn
    by_cases h : c = initial
    · subst h
      rw [fupd_self] at hn
      have hn0 : (0 : Nat) = n := by injection hn
      have hmem : c ∈ keysOf c
          { queue := [(0, c)],
            came_from := fun _ => none,
            g_score := fupd (fun _ => none) c (some 0) } :=
        mem_keysOf.mpr ⟨mem_permsF.mpr (List.Perm.refl _), by simp [fupd_self]⟩
      have hpos := Finset.card_pos.mpr ⟨c, hmem⟩
      omega
    · rw [fupd_ne _ _ h] at hn
      simp at hn
  · -- g_init
    show fupd (fun _ => none) initial (some 0) initial = some 0
    exact fupd_self _ _ _
  · -- cf_keys
    dsimp only
    intro c hc hne
    rw [fupd_ne _ _ hne] at hc
    simp at hc
  · -- cf_link
    dsimp only
    intro n p hnp
    simp at hnp
  · -- queue_keyed
    dsimp only
    intro e he
    simp only [List.mem_singleton] at he
    subst he
    simp [fupd_self]
  · -- queue_pri
    dsimp only
    intro e he hne
    simp only [List.mem_singleton] at he
    subst he
    exact absurd rfl hne
  · -- relaxed
    dsimp only
    intro c gc hgc
    by_cases h : c = initial
    · subst h
      rw [fupd_self] at hgc
      have h0 : (0 : Nat) = gc := by injection hgc
      left
      exact ⟨0, by omega, by simp⟩
    · rw [fupd_ne _ _ h] at hgc
      simp at hgc
  · -- lower
    dsimp only
    intro c gc hgc
    by_cases h : c = initial
    · subst h
      exact ⟨0, Nat.zero_le _, Steps.refl _⟩
    · rw [fupd_ne _ _ h] at hgc
      simp at hgc
  · -- goal_queued
    dsimp only
    intro hgne hsome
    rw [fupd_ne _ _ hgne] at hsome
    simp at hsome

/-- The termination measure of the initial state fits under the fuel the
    solver supplies to its loop. -/
theorem measure_init_lt (initial : Config) :
    measureOf initial
      { queue := [(0, initial)],
        came_from := fun _ => none,
        g_score := fupd (fun _ => none) initial (some 0) } <
      Nat.factorial initial.length * Nat.factorial initial.length + 2 := by
  unfold measureOf
  dsimp only
  have hsum : ((permsF initial).sum fun c =>
      ((fupd (fun _ => none) initial (some 0)) c).getD (Nat.factorial initial.length)) ≤
      (permsF initial).card * Nat.factorial initial.length := by
    have hle := Finset.sum_le_card_nsmul (permsF initial)
      (fun c => ((fupd (fun _ => none) initial (some 0)) c).getD
        (Nat.factorial initial.length))
      (Nat.factorial initial.length) ?_
    · simpa [smul_eq_mul] using hle
    · intro c _
      dsimp only
      by_cases h : c = initial
      · subst h
        simp [fupd_self]
      · rw [fupd_ne _ _ h]
        simp
  have hcard := permsF_card_le initial
  have hmul : (permsF initial).card * Nat.factorial initial.length ≤
      Nat.factorial initial.length * Nat.factorial initial.length :=
    Nat.mul_le_mul_right _ hcard
  simp only [List.length_singleton]
  omega

/-- Behaviour of the whole solver on a valid pair with distinct start and
    goal: it succeeds, answering the empty list exactly when the goal is
    unreachable and otherwise a shortest legal move chain to the goal. -/
theorem a_star_run {initial goal : Config}
    (hvi : ValidConfig initial) (hvg : ValidConfig goal) (hne : initial ≠ goal) :
    ∃ result, a_star_solver initial goal = .ok result ∧
      ((result = [] ∧ ∀ k, ¬ Steps initial goal k) ∨
       (List.Chain moveRel initial result ∧ result ≠ [] ∧
        result.getLast? = some goal ∧ initial ∉ result ∧
        (∀ k, Steps initial goal k → result.length ≤ k))) := by
  have hig : initial.Perm goal :=
    (show initial.Perm canonical3 from hvi).trans
      (show goal.Perm canonical3 from hvg).symm
  have hmd : manhattan_distance initial goal = .ok (mval initial goal) :=
    manhattan_ok (fun t ht _ => hig.mem_iff.mp ht)
  obtain ⟨result, hres, hprop⟩ := aLoop_run hvi hvg hne
    (Nat.factorial initial.length * Nat.factorial initial.length + 2) _
    aInv_init (measure_init_lt initial)
  refine ⟨result, ?_, hprop⟩
  simp only [a_star_solver, hmd]
  exact hres

/-- The solver answers the empty list when start and goal coincide: the
    very first pop is the goal and the reconstruction walk stops at once. -/
theorem aSolveSelf {start : Config} (h : ValidConfig start) :
    a_star_solver start start = .ok [] := by
  have hmd : manhattan_distance start start = .ok (mval start start) :=
    manhattan_ok (fun t ht _ => ht)
  simp only [a_star_solver, hmd]
  have hB : Nat.factorial start.length * Nat.factorial start.length + 2 =
      (Nat.factorial start.length * Nat.factorial start.length + 1) + 1 := rfl
  rw [hB]
  simp only [aLoop, popMin]
  obtain ⟨m, hm⟩ : ∃ m, Nat.factorial start.length = m + 1 :=
    ⟨Nat.factorial start.length - 1, by have := Nat.factorial_pos start.length; omega⟩
  rw [hm]
  simp [reconstruct]

/-- C7: on every pair of valid configurations the solver terminates with a
    normal result, and if the goal is unreachable from the start under the
    legal move relation the result is the empty sequence. -/
theorem solver_terminates (start goal : Config)
    (hs : ValidConfig start) (hg : ValidConfig goal) :
    (∃ r, a_star_solver start goal = .ok r) ∧
    ((∀ k, ¬ Steps start goal k) → a_star_solver start goal = .ok []) := by
  by_cases hne : start = goal
  · subst hne
    exact ⟨⟨[], aSolveSelf hs⟩, fun _ => aSolveSelf hs⟩
  · obtain ⟨result, hres, hprop⟩ := a_star_run hs hg hne
    refine ⟨⟨result, hres⟩, fun hunreach => ?_⟩
    rcases hprop with ⟨rfl, _⟩ | ⟨hch, _, hlast, _, _⟩
    · exact hres
    · exact absurd (chain_to_steps hch hlast) (hunreach _)

/-- Witness for C7 on the unsolvable pair of the spec's own scenario. -/
theorem solver_terminates_witness :
    ValidConfig [2, 1, 3, 4, 5, 6, 7, 8, -1] ∧ ValidConfig canonical3 ∧
    ((∃ r, a_star_solver [2, 1, 3, 4, 5, 6, 7, 8, -1] canonical3 = .ok r) ∧
     ((∀ k, ¬ Steps [2, 1, 3, 4, 5, 6, 7, 8, -1] canonical3 k) →
      a_star_solver [2, 1, 3, 4, 5, 6, 7, 8, -1] canonical3 = .ok [])) :=
  ⟨by decide, by decide, solver_terminates _ _ (by decide) (by decide)⟩

/-- C6 counterexample: the pair (goal, goal) is solvable (reachable in zero
    moves), yet the returned sequence is empty, so its last element is not
    the goal as the claim demands of every solvable pair. -/
theorem solve_path_cex :
    ValidConfig canonical3 ∧
    (∃ k, Steps canonical3 canonical3 k) ∧
    a_star_solver canonical3 canonical3 = .ok [] ∧
    ¬ (([] : List Config).getLast? = some canonical3) :=
  ⟨by decide, ⟨0, Steps.refl _⟩, aSolveSelf (by decide), by simp⟩

/-- C6 (amended): for every valid pair with start distinct from goal and
    goal reachable from start, the returned sequence omits the start, ends
    in the goal, and advances by one legal blank-swap move at each step. -/
theorem solve_path_chain (start goal : Config)
    (hs : ValidConfig start) (hg : ValidConfig goal) (hne : start ≠ goal)
    (k : Nat) (hreach : Steps start goal k) :
    ∃ result, a_star_solver start goal = .ok result ∧
      start ∉ result ∧ result.getLast? = some goal ∧
      List.Chain moveRel start result := by
  obtain ⟨result, hres, hprop⟩ := a_star_run hs hg hne
  rcases hprop with ⟨rfl, hunreach⟩ | ⟨hch, _, hlast, hni, _⟩
  · exact absurd hreach (hunreach k)
  · exact ⟨result, hres, hni, hlast, hch⟩

/-- Witness for the amended C6 on a one-move pair. -/
theorem solve_path_chain_witness :
    (ValidConfig [1, 2, 3, 4, 5, 6, 7, -1, 8] ∧ ValidConfig canonical3 ∧
     [1, 2, 3, 4, 5, 6, 7, -1, 8] ≠ canonical3 ∧
     Steps [1, 2, 3, 4, 5, 6, 7, -1, 8] canonical3 1) ∧
    (∃ result, a_star_solver [1, 2, 3, 4, 5, 6, 7, -1, 8] canonical3 = .ok result ∧
      [1, 2, 3, 4, 5, 6, 7, -1, 8] ∉ result ∧
      result.getLast? = some canonical3 ∧
      List.Chain moveRel [1, 2, 3, 4, 5, 6, 7, -1, 8] result) := by
  have h1 : moveRel [1, 2, 3, 4, 5, 6, 7, -1, 8] canonical3 := by decide
  have hst : Steps [1, 2, 3, 4, 5, 6, 7, -1, 8] canonical3 1 :=
    Steps.tail (Steps.refl _) h1
  exact ⟨⟨by decide, by decide, by decide, hst⟩,
    solve_path_chain _ _ (by decide) (by decide) (by decide) 1 hst⟩

/-- C1: on every valid pair whose goal is reachable from the start, the
    solver succeeds with a path whose length is a number of moves that
    reaches the goal and is minimal among all such numbers of moves. -/
theorem a_star_finds_shortest_path (start goal : Config)
    (hs : ValidConfig start) (hg : ValidConfig goal)
    (k : Nat) (hreach : Steps start goal k) :
    ∃ path, a_star_solver start goal = .ok path ∧
      Steps start goal path.length ∧
      ∀ m, Steps start goal m → path.length ≤ m := by
  by_cases hne : start = goal
  · subst hne
    exact ⟨[], aSolveSelf hs, Steps.refl _, fun m _ => Nat.zero_le _⟩
  · obtain ⟨result, hres, hprop⟩ := a_star_run hs hg hne
    rcases hprop with ⟨rfl, hunreach⟩ | ⟨hch, _, hlast, _, hmin⟩
    · exact absurd hreach (hunreach k)
    · exact ⟨result, hres, chain_to_steps hch hlast, hmin⟩

/-- Witness for C1 on a two-move pair. -/
theorem a_star_finds_shortest_path_witness :
    (ValidConfig [1, 2, 3, 4, -1, 6, 7, 5, 8] ∧ ValidConfig canonical3 ∧
     Steps [1, 2, 3, 4, -1, 6, 7, 5, 8] canonical3 2) ∧
    (∃ path, a_star_solver [1, 2, 3, 4, -1, 6, 7, 5, 8] canonical3 = .ok path ∧
      Steps [1, 2, 3, 4, -1, 6, 7, 5, 8] canonical3 path.length ∧
      ∀ m, Steps [1, 2, 3, 4, -1, 6, 7, 5, 8] canonical3 m → path.length ≤ m) := by
  have h1 : moveRel [1, 2, 3, 4, -1, 6, 7, 5, 8] [1, 2, 3, 4, 5, 6, 7, -1, 8] := by
    decide
  have h2 : moveRel [1, 2, 3, 4, 5, 6, 7, -1, 8] canonical3 := by decide
  have hst : Steps [1, 2, 3, 4, -1, 6, 7, 5, 8] canonical3 2 :=
    Steps.tail (Steps.tail (Steps.refl _) h1) h2
  exact ⟨⟨by decide, by decide, hst⟩,
    a_star_finds_shortest_path _ _ (by decide) (by decide) 2 hst⟩
